import Mathlib

/-- Sublist spelled without the scoped notation: `PySub l1 l2` means l1 is an
ordered (not necessarily contiguous) subsequence of l2. -/
abbrev PySub (l1 l2 : List Char) : Prop := List.Sublist l1 l2

/- Verification of LLMSRTTranslator (src/translator.py).
   Python strings are modelled as lists of characters; the subtitle type
   of the external `srt` library is modelled by the `Subtitle` structure
   below with the four fields the program reads or writes. -/

abbrev PyStr := List Char

/-- Characters removed by Python str.strip() with no argument (ASCII whitespace). -/
def pyIsSpace (c : Char) : Bool :=
  c = ' ' || c = '\t' || c = '\n' || c = '\r' || c = '\x0b' || c = '\x0c'

/-- Python str.lstrip(). -/
def pyLStrip (s : PyStr) : PyStr := s.dropWhile pyIsSpace

/-- Python str.rstrip(). -/
def pyRStrip (s : PyStr) : PyStr := (s.reverse.dropWhile pyIsSpace).reverse

/-- Python str.strip(). -/
def pyStrip (s : PyStr) : PyStr := pyRStrip (pyLStrip s)

/-- Index of the first occurrence of `pat` as a contiguous block of `l`. -/
def firstIdxOf (pat : PyStr) : PyStr → Option Nat
  | [] => if pat.isEmpty then some 0 else none
  | c :: t => if pat.isPrefixOf (c :: t) then some 0 else (firstIdxOf pat t).map (· + 1)

/-- Index of the last occurrence of `pat` as a contiguous block of `l`. -/
def lastIdxOf (pat : PyStr) : PyStr → Option Nat
  | [] => none
  | c :: t =>
    match lastIdxOf pat t with
    | some i => some (i + 1)
    | none => if pat.isPrefixOf (c :: t) then some 0 else none

/-- Python substring test `pat in s`. -/
def containsSub (pat : PyStr) : PyStr → Bool
  | [] => pat.isEmpty
  | c :: t => pat.isPrefixOf (c :: t) || containsSub pat t

def OPEN_THINK : PyStr := "<think>".toList

def CLOSE_THINK : PyStr := "</think>".toList

/-- Embeds `re.sub(r'<think>(.|\n)*</think>', '', text)` (translator.py line 191/203):
a greedy match runs from the first `<think>` to the last `</think>` at or after its
end, and at most one match is replaced since no `</think>` can remain afterwards. -/
def removeThinkBlock (l : PyStr) : PyStr :=
  match firstIdxOf OPEN_THINK l, lastIdxOf CLOSE_THINK l with
  | some i, some j =>
    if i + OPEN_THINK.length ≤ j then l.take i ++ l.drop (j + CLOSE_THINK.length) else l
  | _, _ => l

/-- translator.py `remove_html_tags` (lines 181-191). Note: its body is
`re.sub(r'<think>(.|\n)*</think>', '', text).strip()`, identical to
`remove_thinking`; it does not remove HTML tags. -/
def remove_html_tags (text : PyStr) : PyStr := pyStrip (removeThinkBlock text)

/-- translator.py `remove_thinking` (lines 193-203). -/
def remove_thinking (text : PyStr) : PyStr := pyStrip (removeThinkBlock text)

/-- The sentence-final characters of `ends_with_punctuation` (line 217). -/
def PUNCT_CHARS : List Char := ['.', '!', '?', '"', '\'', '♪']

/-- translator.py `ends_with_punctuation` (lines 205-217). -/
def ends_with_punctuation (text : PyStr) : Bool :=
  match (remove_html_tags text).getLast? with
  | some c => PUNCT_CHARS.contains c
  | none => false

/-- translator.py `starts_with_hyphen` (lines 219-231). -/
def starts_with_hyphen (text : PyStr) : Bool :=
  match remove_html_tags text with
  | c :: _ => c = '-'
  | [] => false

/-- A subtitle cue as handed around by the program: srt index, timestamps
(abstracted to naturals), and the text content. The source field name `end`
is a reserved word in Lean and is rendered `stop`. -/
structure Subtitle where
  index : Int
  start : Nat
  stop : Nat
  content : PyStr
deriving DecidableEq

def defaultSubtitle : Subtitle := ⟨0, 0, 0, []⟩

/-- Python `s.split("\n")`. -/
def splitLines : PyStr → List PyStr
  | [] => [[]]
  | c :: t =>
    if c = '\n' then [] :: splitLines t
    else
      match splitLines t with
      | h :: r => (c :: h) :: r
      | [] => [[c]]

/- ------------------------------------------------------------------ -/
/- Reformatter: translator.py `reformatSRTFile` (lines 306-357).       -/

/-- The loop state of `reformatSRTFile`: the output list, the next fresh id,
`prev_line`, `line_builder` and `start_sub`. -/
structure ReformatState where
  formatted : List Subtitle
  nextId : Int
  prevLine : PyStr
  builder : PyStr
  startSub : Subtitle
deriving DecidableEq

/-- The body of the inner `for line in sub_lines` loop (lines 330-344).
Alongside the new state it reports the ghost pair
(stripped raw line, text actually appended to the builder), which the
program itself does not store; the pair is used only to state coverage. -/
def processLineRec (st : ReformatState) (rawLine : PyStr) : ReformatState × (PyStr × PyStr) :=
  let line := pyStrip rawLine
  if starts_with_hyphen line && !(pyStrip st.prevLine).isEmpty
      && !(ends_with_punctuation st.prevLine) then
    let line2 := pyStrip (line.drop 1)
    ({ st with builder := (st.builder ++ [' ']) ++ line2, prevLine := line2 }, (line, line2))
  else if starts_with_hyphen line then
    ({ st with builder := (st.builder ++ ['\n']) ++ line, prevLine := line }, (line, line))
  else
    ({ st with builder := (st.builder ++ [' ']) ++ line, prevLine := line }, (line, line))

/-- Folds `processLineRec` over the display lines of one cue, collecting
the ghost pairs in order. -/
def processLinesRec : ReformatState → List PyStr → ReformatState × List (PyStr × PyStr)
  | st, [] => (st, [])
  | st, l :: rest =>
    let q := processLineRec st l
    let r := processLinesRec q.1 rest
    (r.1, q.2 :: r.2)

/-- The end-of-cue emission check (lines 346-354): when `prev_line` ends in
sentence-final punctuation a new output cue is appended and the accumulator
is reset; `start_sub` advances exactly as in the source, via
`subs[-1] if sub == subs[-1] else subs[subs.index(sub) + 1]`. -/
def emitCheck (allSubs : List Subtitle) (sub : Subtitle) (st : ReformatState) : ReformatState :=
  if ends_with_punctuation st.prevLine then
    { formatted :=
        st.formatted ++ [⟨st.nextId, st.startSub.start, sub.stop, pyStrip st.builder⟩]
      nextId := st.nextId + 1
      prevLine := []
      builder := []
      startSub :=
        if sub = allSubs.getLastD defaultSubtitle then allSubs.getLastD defaultSubtitle
        else allSubs.getD (List.findIdx (fun x => decide (x = sub)) allSubs + 1) defaultSubtitle }
  else st

/-- Processing of one raw cue: split its content into lines, fold the line
loop, then run the emission check. -/
def processCueRec (allSubs : List Subtitle) (st : ReformatState) (sub : Subtitle) :
    ReformatState × List (PyStr × PyStr) :=
  let r := processLinesRec st (splitLines sub.content)
  (emitCheck allSubs sub r.1, r.2)

/-- The outer `for index, sub in enumerate(subs)` loop of `reformatSRTFile`. -/
def runReformatGo (allSubs : List Subtitle) :
    ReformatState → List Subtitle → ReformatState × List (PyStr × PyStr)
  | st, [] => (st, [])
  | st, sub :: rest =>
    let q := processCueRec allSubs st sub
    let r := runReformatGo allSubs q.1 rest
    (r.1, q.2 ++ r.2)

/-- The initial state of `reformatSRTFile` (lines 316-322): empty output,
id 1, empty `prev_line` and `line_builder`, `start_sub = subs[0]`. -/
def initReformatState (subs : List Subtitle) : ReformatState :=
  ⟨[], 1, [], [], subs.headD defaultSubtitle⟩

/-- The full run of `reformatSRTFile`, final state plus ghost pairs. -/
def runReformat (subs : List Subtitle) : ReformatState × List (PyStr × PyStr) :=
  runReformatGo subs (initReformatState subs) subs

/-- translator.py `reformatSRTFile` (lines 306-357): the returned list. -/
def reformatSRTFile (subs : List Subtitle) : List Subtitle :=
  (runReformat subs).1.formatted

/- ------------------------------------------------------------------ -/
/- Batch translation driver: translator.py lines 61-71 and 233-456.    -/

/-- Config constant SUBTITLE_CONTEXT_COUNT (line 67). -/
def SUBTITLE_CONTEXT_COUNT : Nat := 15

/-- Config constant TRANSLATION_BATCH_LENGTH (line 71). -/
def TRANSLATION_BATCH_LENGTH : Nat := 4

/-- Config constant TRANSLATION_PREFIX (line 62), the opening translation
markup written before a translated line. -/
def TRANSLATION_PRE : PyStr := "<span style=\"color: yellow;\"><i>".toList

/-- Config constant TRANSLATION_SUFFIX (line 63). -/
def TRANSLATION_SUFFIX : PyStr := "</i></span>".toList

/-- The resumability check of `translateSRTFile` (line 422): a cue counts as
already translated when its content contains either markup delimiter. -/
def isClosedContent (c : PyStr) : Bool :=
  containsSub TRANSLATION_PRE c || containsSub TRANSLATION_SUFFIX c

/-- The external oracle boundary: prompt templating, the blocking
`ollama_client.generate` call, `remove_thinking` and `ast.literal_eval`
(translator.py lines 244-301) collapse into one function from the three
semantic prompt slots to a parsed list of translated strings; `none` models
any exception raised inside the `try` of `translate_batch`. -/
def Oracle : Type :=
  List (PyStr × PyStr) → List PyStr → List Subtitle → Option (List PyStr)

/-- translator.py `translate_batch` (lines 233-304): a single oracle request;
any exception yields the empty list (line 304). -/
def translate_batch (oracle : Oracle) (prev : List (PyStr × PyStr))
    (future : List PyStr) (batch : List Subtitle) : List PyStr :=
  (oracle prev future batch).getD []

/-- The inner loop of `update_future_subs` (lines 379-386): append stripped
contents until SUBTITLE_CONTEXT_COUNT entries are collected. -/
def futureGo (acc : List PyStr) : List PyStr → List PyStr
  | [] => acc
  | s :: rest =>
    let acc2 := acc ++ [pyStrip s]
    if SUBTITLE_CONTEXT_COUNT ≤ acc2.length then acc2 else futureGo acc2 rest

/-- translator.py `update_future_subs` (lines 369-386), returning the new
value of the global `future_subs`. -/
def update_future_subs (index : Nat) (subs : List Subtitle) : List PyStr :=
  futureGo [] ((subs.drop index).map Subtitle.content)

/-- The `while len(...) > SUBTITLE_CONTEXT_COUNT: pop(0)` loop of
`append_prev_subs_and_translations` (lines 401-402), with the list length
as explicit fuel (each pop shortens the list, so the fuel is never
exhausted before the loop guard fails). -/
def trimPrevGo : Nat → List (PyStr × PyStr) → List (PyStr × PyStr)
  | 0, l => l
  | fuel + 1, l => if SUBTITLE_CONTEXT_COUNT < l.length then trimPrevGo fuel l.tail else l

def trimPrev (l : List (PyStr × PyStr)) : List (PyStr × PyStr) := trimPrevGo l.length l

/-- translator.py `append_prev_subs_and_translations` (lines 389-402),
returning the new value of the global `prev_subs_and_translations`. -/
def append_prev_subs_and_translations (prev : List (PyStr × PyStr))
    (p : PyStr × PyStr) : List (PyStr × PyStr) :=
  trimPrev (prev ++ [p])

/-- Line 449: append a line break, the opening markup, the (already stripped)
translated text and the closing markup to the cue content. -/
def closeCue (s : Subtitle) (t : PyStr) : Subtitle :=
  { s with content := s.content ++ '\n' :: (TRANSLATION_PRE ++ (t ++ TRANSLATION_SUFFIX)) }

/-- The `for sub, translated_content in zip(subs_batch, translations)` loop of
`translateSRTFile` (lines 436-449): strip the translation, record the context
pair from the pre-update content, strip again, and append the markup to the
cue at position `i`; positions advance with the zip. -/
def applyBatch :
    List Subtitle → List (PyStr × PyStr) → Nat → List (Subtitle × PyStr) →
    List Subtitle × List (PyStr × PyStr)
  | subs, prev, _, [] => (subs, prev)
  | subs, prev, i, (sub, t) :: rest =>
    let t1 := pyStrip t
    let prev1 := append_prev_subs_and_translations prev (remove_html_tags sub.content, t1)
    let t2 := pyStrip t1
    applyBatch (subs.set i (closeCue sub t2)) prev1 (i + 1) rest

/-- The mutable state threaded through one run of `translateSRTFile`:
the cue list and the two context globals reset by `reset_context`. -/
structure TransState where
  subs : List Subtitle
  prev : List (PyStr × PyStr)
  future : List PyStr
deriving DecidableEq

/-- Ghost observation of one iteration of the batch loop: the batch start
index, whether the resumability check skipped it, the two context windows
as supplied to the oracle, the batch slice and the oracle reply. -/
structure BatchRecord where
  startIndex : Nat
  skipped : Bool
  prevCtx : List (PyStr × PyStr)
  futureCtx : List PyStr
  batch : List Subtitle
  translations : List PyStr
deriving DecidableEq

def defaultBatchRecord : BatchRecord := ⟨0, true, [], [], [], []⟩

/-- One iteration of the `for startIndex in range(0, len(subs), ...)` loop of
`translateSRTFile` (lines 420-452): skip if the first cue of the batch is
already translated, otherwise slice the batch, refresh the future context,
request the translation and zip it onto the batch. File writes (line 451)
are a persistence side effect outside the in-memory state modelled here. -/
def stepBatch (oracle : Oracle) (st : TransState) (startIndex : Nat) :
    TransState × BatchRecord :=
  if isClosedContent (st.subs.getD startIndex defaultSubtitle).content then
    (st, ⟨startIndex, true, st.prev, st.future, [], []⟩)
  else
    let batch := (st.subs.drop startIndex).take TRANSLATION_BATCH_LENGTH
    let future := update_future_subs (startIndex + TRANSLATION_BATCH_LENGTH) st.subs
    let translations := translate_batch oracle st.prev future batch
    let r := applyBatch st.subs st.prev startIndex (batch.zip translations)
    (⟨r.1, r.2, future⟩, ⟨startIndex, false, st.prev, future, batch, translations⟩)

/-- The batch loop over a precomputed list of start indices. -/
def runBatches (oracle : Oracle) :
    TransState → List Nat → TransState × List BatchRecord
  | st, [] => (st, [])
  | st, i :: rest =>
    let q := stepBatch oracle st i
    let r := runBatches oracle q.1 rest
    (r.1, q.2 :: r.2)

/-- Python `range(0, n, TRANSLATION_BATCH_LENGTH)` (line 420). -/
def batchStarts (n : Nat) : List Nat :=
  List.range' 0 ((n + TRANSLATION_BATCH_LENGTH - 1) / TRANSLATION_BATCH_LENGTH)
    TRANSLATION_BATCH_LENGTH

/-- translator.py `translateSRTFile` (lines 404-456): reset the context
globals (`reset_context`, lines 359-367) and run the batch loop; the final
state plus the ghost trace of batch records. -/
def translateSRTRun (oracle : Oracle) (subs : List Subtitle) :
    TransState × List BatchRecord :=
  runBatches oracle ⟨subs, [], []⟩ (batchStarts subs.length)

/-- The cue list returned by `translateSRTFile`. -/
def translateSRTFile (oracle : Oracle) (subs : List Subtitle) : List Subtitle :=
  (translateSRTRun oracle subs).1.subs

/- ------------------------------------------------------------------ -/
/- Reevaluation pass: translator.py lines 159-177 and 458-535.         -/

/-- One corrected translation of the reevaluation reply
(class `ReevaluationResponse.Translation`, lines 171-177). -/
structure ReevalTranslation where
  id : Int
  t : PyStr
deriving DecidableEq

/-- The parsed reevaluation reply (class `ReevaluationResponse`, lines 159-169). -/
structure ReevaluationResponse where
  status : Bool
  updatedTranslations : List ReevalTranslation
deriving DecidableEq

/-- Python `str.replace(pat, repl)` (all occurrences, left to right), with the
string length as fuel; every step consumes at least one character, so the
fuel is exact. -/
def pyReplaceGo (pat repl : PyStr) : Nat → PyStr → PyStr
  | 0, l => l
  | fuel + 1, l =>
    match l with
    | [] => []
    | c :: rest =>
      if !pat.isEmpty && pat.isPrefixOf l then
        repl ++ pyReplaceGo pat repl fuel (l.drop pat.length)
      else c :: pyReplaceGo pat repl fuel rest

def pyReplace (pat repl l : PyStr) : PyStr := pyReplaceGo pat repl l.length l

/-- Embeds the `re.sub(PREFIX.*?SUFFIX, PREFIX t SUFFIX, content, DOTALL)` call
of `reevaluateTranslatedSRTFile` (lines 518-523): every non-greedy match, i.e.
a TRANSLATION_PREFIX followed by the nearest later TRANSLATION_SUFFIX, is
replaced by the delimiters around the corrected text `t`. -/
def reSubGo (t : PyStr) : Nat → PyStr → PyStr
  | 0, l => l
  | fuel + 1, l =>
    match l with
    | [] => []
    | c :: rest =>
      if TRANSLATION_PRE.isPrefixOf l then
        match firstIdxOf TRANSLATION_SUFFIX (l.drop TRANSLATION_PRE.length) with
        | some k =>
          (TRANSLATION_PRE ++ t ++ TRANSLATION_SUFFIX) ++
            reSubGo t fuel (l.drop (TRANSLATION_PRE.length + k + TRANSLATION_SUFFIX.length))
        | none => c :: reSubGo t fuel rest
      else c :: reSubGo t fuel rest

def reSubTranslation (t content : PyStr) : PyStr := reSubGo t content.length content

/-- Python list indexing semantics, needed for `corrected_subs[translation.id - 1]`
(line 516): non-negative positions index from the front, negative ones from the
back, and `none` models an IndexError (caught by the enclosing `try`). -/
def pyResolveIdx (len : Nat) (i : Int) : Option Nat :=
  if 0 ≤ i then (if i.toNat < len then some i.toNat else none)
  else (if (-i).toNat ≤ len then some (len - (-i).toNat) else none)

/-- Line 475 / 530: swap real line breaks and `<br>` in a cue's content. -/
def brEncodeSub (s : Subtitle) : Subtitle :=
  { s with content := pyReplace ['\n'] "<br>".toList s.content }

def brDecodeSub (s : Subtitle) : Subtitle :=
  { s with content := pyReplace "<br>".toList ['\n'] s.content }

/-- The check of line 516 failing for a correction: the claimed id does not
match the index of the cue at Python position `id - 1`, or that position
raises IndexError. -/
def mismatchAt (cs : List Subtitle) (tr : ReevalTranslation) : Bool :=
  match pyResolveIdx cs.length (tr.id - 1) with
  | none => true
  | some k => decide ((cs.getD k defaultSubtitle).index ≠ tr.id)

/-- The `for translation in resp_json.updatedTranslations` loop (lines 514-526):
on an index mismatch (or an IndexError reaching the outer `except`) the
original input `subs0` is returned; after a complete pass the `<br>` markers
are decoded again (lines 529-530) and the corrected copy is returned. -/
def applyCorrections (subs0 : List Subtitle) :
    List Subtitle → List ReevalTranslation → List Subtitle
  | cs, [] => cs.map brDecodeSub
  | cs, tr :: rest =>
    match pyResolveIdx cs.length (tr.id - 1) with
    | none => subs0
    | some k =>
      if (cs.getD k defaultSubtitle).index = tr.id then
        applyCorrections subs0
          (cs.set k
            { cs.getD k defaultSubtitle with
              content := reSubTranslation tr.t (cs.getD k defaultSubtitle).content })
          rest
      else subs0

/-- translator.py `reevaluateTranslatedSRTFile` (lines 458-535). The oracle
request-and-parse loop (lines 480-510) is abstracted by `resp`: `none` models
three failed attempts (`resp_json` still `None`), `some r` a parsed reply. -/
def reevaluateTranslatedSRTFile (subs : List Subtitle)
    (resp : Option ReevaluationResponse) : List Subtitle :=
  let cs := subs.map brEncodeSub
  match resp with
  | some r =>
    if r.status then applyCorrections subs cs r.updatedTranslations
    else cs.map brDecodeSub
  | none => cs.map brDecodeSub

/- ------------------------------------------------------------------ -/
/- Concrete inputs used by the witnesses and counterexamples.          -/

def exC1_subs : List Subtitle :=
  [⟨1, 0, 1, "A.".toList⟩, ⟨2, 1, 2, "B.".toList⟩]

/-- An oracle reply of length 1 for a batch of size 2. -/
def exC1_oracle : Oracle := fun _ _ _ => some ["ha".toList]

def exC2_subs : List Subtitle :=
  [⟨1, 0, 1, "A.".toList⟩, ⟨2, 1, 2, "B.".toList⟩, ⟨3, 2, 3, "C.".toList⟩,
   ⟨4, 3, 4, "D.".toList⟩, ⟨5, 4, 5, "E.".toList⟩, ⟨6, 5, 6, "F.".toList⟩,
   ⟨7, 6, 7, "G.".toList⟩, ⟨8, 7, 8, "H.".toList⟩]

/-- An oracle that always fails on the first batch (the one whose first cue
has index 1) and succeeds on any other batch. -/
def exC2_oracle : Oracle := fun _ _ batch =>
  if (batch.getD 0 defaultSubtitle).index = 1 then none
  else some ["a".toList, "b".toList, "c".toList, "d".toList]

/-- A track whose first four cues already carry the translation markup. -/
def exC5_subs : List Subtitle :=
  [⟨1, 0, 1, "A.\n<span style=\"color: yellow;\"><i>w</i></span>".toList⟩,
   ⟨2, 1, 2, "B.\n<span style=\"color: yellow;\"><i>x</i></span>".toList⟩,
   ⟨3, 2, 3, "C.\n<span style=\"color: yellow;\"><i>y</i></span>".toList⟩,
   ⟨4, 3, 4, "D.\n<span style=\"color: yellow;\"><i>z</i></span>".toList⟩,
   ⟨5, 4, 5, "E.".toList⟩, ⟨6, 5, 6, "F.".toList⟩,
   ⟨7, 6, 7, "G.".toList⟩, ⟨8, 7, 8, "H.".toList⟩]

def exC5_oracle : Oracle := fun _ _ _ =>
  some ["a".toList, "b".toList, "c".toList, "d".toList]

def exC6_subs : List Subtitle :=
  [⟨1, 0, 1, "A.".toList⟩, ⟨2, 1, 2, "B.".toList⟩, ⟨3, 2, 3, "C.".toList⟩,
   ⟨4, 3, 4, "D.".toList⟩, ⟨5, 4, 5, "E.".toList⟩, ⟨6, 5, 6, "F.".toList⟩]

def exC6_oracle : Oracle := fun _ _ _ =>
  some ["a".toList, "b".toList, "c".toList, "d".toList]

def exC7_subs : List Subtitle :=
  [⟨1, 0, 1, "A.\n<span style=\"color: yellow;\"><i>w</i></span>".toList⟩,
   ⟨2, 1, 2, "B.\n<span style=\"color: yellow;\"><i>x</i></span>".toList⟩,
   ⟨3, 2, 3, "C.\n<span style=\"color: yellow;\"><i>y</i></span>".toList⟩,
   ⟨4, 3, 4, "D.\n<span style=\"color: yellow;\"><i>z</i></span>".toList⟩,
   ⟨5, 4, 5, "E.".toList⟩, ⟨6, 5, 6, "F.".toList⟩,
   ⟨7, 6, 7, "G.".toList⟩, ⟨8, 7, 8, "H.".toList⟩]

def exC7_oracle : Oracle := fun _ _ _ =>
  some ["a".toList, "b".toList, "c".toList, "d".toList]

def exC8_subs : List Subtitle := [⟨1, 0, 1, "X.".toList⟩]

/-- A reply whose single correction claims id 2 while the track has one cue. -/
def exC8_resp : ReevaluationResponse := ⟨true, [⟨2, "z".toList⟩]⟩

def exC10_subs : List Subtitle :=
  [⟨1, 0, 1, "A.".toList⟩, ⟨2, 1, 2, "B.".toList⟩, ⟨3, 2, 3, "C.".toList⟩]

def exC10_oracle : Oracle := fun _ _ _ =>
  some ["x".toList, "y".toList, "z".toList]

def exC3_subs : List Subtitle := [⟨1, 0, 1, "World".toList⟩]

def exC4_subs : List Subtitle := [⟨1, 0, 1, "- Hi.\n- Yo.".toList⟩]

def exC4cx_subs : List Subtitle := [⟨1, 0, 1, "Hello\n- there.".toList⟩]

/-- The shape of the batch-start list: each start is at least `c`, and each
start is followed only by starts at least one batch length further on. Used
as the induction hypothesis over the batch loop. -/
def ChainFrom : Nat → List Nat → Prop
  | _, [] => True
  | c, i :: rest => c ≤ i ∧ ChainFrom (i + TRANSLATION_BATCH_LENGTH) rest

/-- The single batch record of the run on `exC1_subs`. -/
def exC1_rec : BatchRecord :=
  (translateSRTRun exC1_oracle exC1_subs).2.getD 0 defaultBatchRecord

/-- The first (failing) batch record of the run on `exC2_subs`. -/
def exC2_rec : BatchRecord :=
  (translateSRTRun exC2_oracle exC2_subs).2.getD 0 defaultBatchRecord

/-- The skipped first batch record of the resumed run on `exC5_subs`. -/
def exC5_rec0 : BatchRecord :=
  (translateSRTRun exC5_oracle exC5_subs).2.getD 0 defaultBatchRecord

/-- The first translated batch record of the resumed run on `exC5_subs`. -/
def exC5_rec1 : BatchRecord :=
  (translateSRTRun exC5_oracle exC5_subs).2.getD 1 defaultBatchRecord

/-- The second batch record of the run on `exC6_subs`. -/
def exC6_rec : BatchRecord :=
  (translateSRTRun exC6_oracle exC6_subs).2.getD 1 defaultBatchRecord

/- ------------------------------------------------------------------ -/
/- Lemmas about the Python string primitives.                          -/

theorem dropWhile_eq_cons_imp {p : Char → Bool} :
    ∀ {l : PyStr} {c : Char} {t : PyStr}, l.dropWhile p = c :: t → p c = false := by
  intro l
  induction l with
  | nil => intro c t h; simp at h
  | cons a l ih =>
    intro c t h
    by_cases ha : p a
    · rw [List.dropWhile_cons_of_pos ha] at h; exact ih h
    · rw [List.dropWhile_cons_of_neg ha] at h
      cases h
      simpa using ha

theorem pyLStrip_head_false {l : PyStr} {c : Char} {t : PyStr}
    (h : pyLStrip l = c :: t) : pyIsSpace c = false :=
  dropWhile_eq_cons_imp h

theorem pyLStrip_sublist (l : PyStr) : PySub (pyLStrip l) l :=
  List.dropWhile_sublist pyIsSpace

theorem pyRStrip_prefixOf (l : PyStr) : List.IsPrefix (pyRStrip l) l := by
  have h : List.IsSuffix (pyRStrip l).reverse l.reverse := by
    show List.IsSuffix (l.reverse.dropWhile pyIsSpace).reverse.reverse l.reverse
    rw [List.reverse_reverse]
    exact List.dropWhile_suffix pyIsSpace
  exact List.reverse_suffix.mp h

theorem pyRStrip_sublist (l : PyStr) : PySub (pyRStrip l) l :=
  (pyRStrip_prefixOf l).sublist

theorem pyStrip_sublist (l : PyStr) : PySub (pyStrip l) l :=
  (pyRStrip_sublist (pyLStrip l)).trans (pyLStrip_sublist l)

theorem pyRStrip_append_space {c : Char} (hc : pyIsSpace c = true) (l : PyStr) :
    pyRStrip (l ++ [c]) = pyRStrip l := by
  show ((l ++ [c]).reverse.dropWhile pyIsSpace).reverse = pyRStrip l
  rw [List.reverse_append]
  show ((c :: l.reverse).dropWhile pyIsSpace).reverse = pyRStrip l
  rw [List.dropWhile_cons_of_pos hc]
  rfl

theorem pyLStrip_append_of_nil {a : PyStr} (h : pyLStrip a = []) (b : PyStr) :
    pyLStrip (a ++ b) = pyLStrip b := by
  have h' : a.dropWhile pyIsSpace = [] := h
  show (a ++ b).dropWhile pyIsSpace = pyLStrip b
  rw [List.dropWhile_append, h']
  simp [pyLStrip]

theorem pyLStrip_append_of_ne_nil {a : PyStr} (h : pyLStrip a ≠ []) (b : PyStr) :
    pyLStrip (a ++ b) = pyLStrip a ++ b := by
  have h' : a.dropWhile pyIsSpace ≠ [] := h
  show (a ++ b).dropWhile pyIsSpace = pyLStrip a ++ b
  rw [List.dropWhile_append]
  simp [h']
  rfl

theorem dropWhile_eq_self_of_head {p : Char → Bool} {c : Char} {t : PyStr}
    (hc : p c = false) : (c :: t).dropWhile p = c :: t :=
  List.dropWhile_cons_of_neg (by simp [hc])

theorem pyRStrip_append_fix {b : PyStr} (hb : pyRStrip b = b) (hne : b ≠ [])
    (a : PyStr) : pyRStrip (a ++ b) = a ++ b := by
  have hrev : b.reverse.dropWhile pyIsSpace = b.reverse := by
    have h1 := congrArg List.reverse hb
    rw [pyRStrip, List.reverse_reverse] at h1
    exact h1
  obtain ⟨c, t, hct⟩ : ∃ c t, b.reverse = c :: t := by
    cases hbr : b.reverse with
    | nil =>
      exfalso
      apply hne
      have := congrArg List.reverse hbr
      simpa using this
    | cons c t => exact ⟨c, t, rfl⟩
  have hc : pyIsSpace c = false := by
    rw [hct] at hrev
    exact dropWhile_eq_cons_imp hrev
  show ((a ++ b).reverse.dropWhile pyIsSpace).reverse = a ++ b
  rw [List.reverse_append, hct]
  show ((c :: (t ++ a.reverse)).dropWhile pyIsSpace).reverse = a ++ b
  rw [dropWhile_eq_self_of_head hc]
  show ((c :: t) ++ a.reverse).reverse = a ++ b
  rw [← hct, ← List.reverse_append, List.reverse_reverse]

theorem pyRStrip_idem (l : PyStr) : pyRStrip (pyRStrip l) = pyRStrip l := by
  show ((l.reverse.dropWhile pyIsSpace).reverse.reverse.dropWhile pyIsSpace).reverse
      = pyRStrip l
  rw [List.reverse_reverse]
  cases hd : l.reverse.dropWhile pyIsSpace with
  | nil =>
    have h0 : pyRStrip l = [] := by
      show (l.reverse.dropWhile pyIsSpace).reverse = []
      rw [hd]
      rfl
    rw [h0]
    rfl
  | cons c t =>
    rw [dropWhile_eq_self_of_head (dropWhile_eq_cons_imp hd), ← hd]
    rfl

theorem pyStrip_rstrip_fix (l : PyStr) : pyRStrip (pyStrip l) = pyStrip l :=
  pyRStrip_idem (pyLStrip l)

theorem pyStrip_lstrip_fix (l : PyStr) : pyLStrip (pyStrip l) = pyStrip l := by
  cases h : pyStrip l with
  | nil => simp [pyLStrip]
  | cons c t =>
    have hpre : pyStrip l <+: pyLStrip l := pyRStrip_prefixOf (pyLStrip l)
    rw [h] at hpre
    obtain ⟨r, hr⟩ := hpre
    have hl : pyLStrip l = c :: (t ++ r) := by rw [← hr]; rfl
    have hc := pyLStrip_head_false hl
    exact dropWhile_eq_self_of_head hc

theorem pyStrip_idem (l : PyStr) : pyStrip (pyStrip l) = pyStrip l := by
  show pyRStrip (pyLStrip (pyStrip l)) = pyStrip l
  rw [pyStrip_lstrip_fix, pyStrip_rstrip_fix]

theorem pyStrip_append_space {j : Char} (hj : pyIsSpace j = true) (b : PyStr) :
    pyStrip (b ++ [j]) = pyStrip b := by
  by_cases hb : pyLStrip b = []
  · show pyRStrip (pyLStrip (b ++ [j])) = pyStrip b
    rw [pyLStrip_append_of_nil hb]
    show pyRStrip ([j].dropWhile pyIsSpace) = pyStrip b
    rw [List.dropWhile_cons_of_pos hj]
    show pyRStrip ([] : PyStr) = pyRStrip (pyLStrip b)
    rw [hb]
  · show pyRStrip (pyLStrip (b ++ [j])) = pyStrip b
    rw [pyLStrip_append_of_ne_nil hb, pyRStrip_append_space hj]
    rfl

theorem pyStrip_append_unit {j : Char} (hj : pyIsSpace j = true) {c : PyStr}
    (hc : pyStrip c = c) (hcne : c ≠ []) (b : PyStr) :
    pyStrip (b ++ j :: c) =
      (if pyLStrip b = [] then c else pyLStrip b ++ j :: c) := by
  have hcr : pyRStrip c = c := by
    conv_lhs => rw [← hc]
    rw [pyStrip_rstrip_fix, hc]
  by_cases hb : pyLStrip b = []
  · rw [if_pos hb]
    show pyRStrip (pyLStrip (b ++ j :: c)) = c
    rw [pyLStrip_append_of_nil hb]
    show pyRStrip ((j :: c).dropWhile pyIsSpace) = c
    rw [List.dropWhile_cons_of_pos hj]
    have hcl : pyLStrip c = c := by
      conv_lhs => rw [← hc]
      rw [pyStrip_lstrip_fix, hc]
    show pyRStrip (pyLStrip c) = c
    rw [hcl, hcr]
  · rw [if_neg hb]
    show pyRStrip (pyLStrip (b ++ j :: c)) = pyLStrip b ++ j :: c
    rw [pyLStrip_append_of_ne_nil hb]
    have : pyLStrip b ++ j :: c = (pyLStrip b ++ [j]) ++ c := by simp
    rw [this, pyRStrip_append_fix hcr hcne, ← this]

/- ------------------------------------------------------------------ -/
/- Reformatter fold lemmas.                                            -/

theorem processLinesRec_cons (st : ReformatState) (l : PyStr) (rest : List PyStr) :
    processLinesRec st (l :: rest) =
      ((processLinesRec (processLineRec st l).1 rest).1,
        (processLineRec st l).2 :: (processLinesRec (processLineRec st l).1 rest).2) := rfl

theorem processLineRec_fields (st : ReformatState) (l : PyStr) :
    ((processLineRec st l).1).formatted = st.formatted ∧
    ((processLineRec st l).1).nextId = st.nextId ∧
    ((processLineRec st l).1).startSub = st.startSub := by
  simp only [processLineRec]
  split_ifs <;> exact ⟨rfl, rfl, rfl⟩

theorem processLineRec_prevLine (st : ReformatState) (l : PyStr) :
    ((processLineRec st l).1).prevLine = pyStrip l ∨
    ((processLineRec st l).1).prevLine = pyStrip ((pyStrip l).drop 1) := by
  simp only [processLineRec]
  split_ifs
  · exact Or.inr rfl
  · exact Or.inl rfl
  · exact Or.inl rfl

theorem processLinesRec_no_punct :
    ∀ (lines : List PyStr) (st : ReformatState),
      (∀ l ∈ lines, ends_with_punctuation (pyStrip l) = false ∧
        ends_with_punctuation (pyStrip ((pyStrip l).drop 1)) = false) →
      ends_with_punctuation st.prevLine = false →
      ends_with_punctuation ((processLinesRec st lines).1).prevLine = false ∧
      ((processLinesRec st lines).1).formatted = st.formatted := by
  intro lines
  induction lines with
  | nil => intro st _ hst; exact ⟨hst, rfl⟩
  | cons l rest ih =>
    intro st hall hst
    have hl := hall l (by simp)
    have hrest : ∀ x ∈ rest, ends_with_punctuation (pyStrip x) = false ∧
        ends_with_punctuation (pyStrip ((pyStrip x).drop 1)) = false :=
      fun x hx => hall x (by simp [hx])
    rw [processLinesRec_cons]
    have hprev : ends_with_punctuation ((processLineRec st l).1).prevLine = false := by
      rcases processLineRec_prevLine st l with h | h
      · rw [h]; exact hl.1
      · rw [h]; exact hl.2
    have hmain := ih (processLineRec st l).1 hrest hprev
    exact ⟨hmain.1, hmain.2.trans (processLineRec_fields st l).1⟩

theorem emitCheck_of_no_punct (allSubs : List Subtitle) (sub : Subtitle)
    (st : ReformatState) (h : ends_with_punctuation st.prevLine = false) :
    emitCheck allSubs sub st = st := by
  simp [emitCheck, h]

theorem runReformatGo_cons (allSubs : List Subtitle) (st : ReformatState)
    (sub : Subtitle) (rest : List Subtitle) :
    runReformatGo allSubs st (sub :: rest) =
      ((runReformatGo allSubs (processCueRec allSubs st sub).1 rest).1,
        (processCueRec allSubs st sub).2 ++
          (runReformatGo allSubs (processCueRec allSubs st sub).1 rest).2) := rfl

theorem processCueRec_fst (allSubs : List Subtitle) (st : ReformatState) (sub : Subtitle) :
    (processCueRec allSubs st sub).1 =
      emitCheck allSubs sub (processLinesRec st (splitLines sub.content)).1 := rfl

theorem processCueRec_snd (allSubs : List Subtitle) (st : ReformatState) (sub : Subtitle) :
    (processCueRec allSubs st sub).2 =
      (processLinesRec st (splitLines sub.content)).2 := rfl

theorem runReformatGo_no_punct :
    ∀ (cues : List Subtitle) (allSubs : List Subtitle) (st : ReformatState),
      (∀ sub ∈ cues, ∀ l ∈ splitLines sub.content,
        ends_with_punctuation (pyStrip l) = false ∧
        ends_with_punctuation (pyStrip ((pyStrip l).drop 1)) = false) →
      ends_with_punctuation st.prevLine = false →
      ((runReformatGo allSubs st cues).1).formatted = st.formatted ∧
      ends_with_punctuation (((runReformatGo allSubs st cues).1)).prevLine = false := by
  intro cues
  induction cues with
  | nil => intro allSubs st _ hst; exact ⟨rfl, hst⟩
  | cons sub rest ih =>
    intro allSubs st hall hst
    have hsub := hall sub (by simp)
    have hrest : ∀ s ∈ rest, ∀ l ∈ splitLines s.content,
        ends_with_punctuation (pyStrip l) = false ∧
        ends_with_punctuation (pyStrip ((pyStrip l).drop 1)) = false :=
      fun s hs => hall s (by simp [hs])
    have hlines := processLinesRec_no_punct (splitLines sub.content) st hsub hst
    have hemit := emitCheck_of_no_punct allSubs sub
      (processLinesRec st (splitLines sub.content)).1 hlines.1
    rw [runReformatGo_cons]
    dsimp only
    rw [processCueRec_fst, hemit]
    have hmain := ih allSubs (processLinesRec st (splitLines sub.content)).1 hrest hlines.1
    exact ⟨hmain.1.trans hlines.2, hmain.2⟩

/-- C3, counterexample. The claim states that a non-empty raw cue sequence
whose last processed line lacks sentence-final punctuation still has its
accumulated text flushed as a final output cue. On the single cue "Hello"
(which does not end in punctuation) the reformatter returns the empty list:
the accumulator is discarded, not flushed. -/
theorem claim3_counterexample :
    ends_with_punctuation ("Hello".toList) = false ∧
    reformatSRTFile [⟨1, 0, 1, "Hello".toList⟩] = [] := by
  constructor
  · decide
  · rfl

/-- C3, amended. The reformatter discards (rather than flushes) the trailing
unterminated accumulator: a raw cue sequence none of whose stripped display
lines ends in sentence-final punctuation (the line itself or, for the
hyphen-continuation rewrite, the line with its first character dropped)
produces no output cue at all. -/
theorem claim3_amended_discard (subs : List Subtitle)
    (h : ∀ sub ∈ subs, ∀ l ∈ splitLines sub.content,
      ends_with_punctuation (pyStrip l) = false ∧
      ends_with_punctuation (pyStrip ((pyStrip l).drop 1)) = false) :
    reformatSRTFile subs = [] := by
  have h0 : ends_with_punctuation (initReformatState subs).prevLine = false := by
    show ends_with_punctuation [] = false
    decide
  exact (runReformatGo_no_punct subs subs (initReformatState subs) h h0).1

/-- C3, witness for the amended theorem at a concrete unterminated track. -/
theorem claim3_amended_witness :
    (∀ sub ∈ exC3_subs, ∀ l ∈ splitLines sub.content,
      ends_with_punctuation (pyStrip l) = false ∧
      ends_with_punctuation (pyStrip ((pyStrip l).drop 1)) = false) ∧
    reformatSRTFile exC3_subs = [] :=
  ⟨by decide, claim3_amended_discard exC3_subs (by decide)⟩

/-- C9, code bug evaluation. The claim (and the docstring of
`remove_html_tags`) say HTML-ish markup is stripped before the hyphen-start
and punctuation tests, so visible text ending in punctuation should pass even
with trailing tags. In the code `remove_html_tags` only removes
`<think>...</think>` blocks, so a trailing `</i>` defeats the punctuation
test and a leading `<i>` defeats the hyphen test, while the same visible
texts without tags pass. -/
theorem claim9_code_evaluation :
    remove_html_tags ("Hello.</i>".toList) = "Hello.</i>".toList ∧
    ends_with_punctuation ("Hello.</i>".toList) = false ∧
    ends_with_punctuation ("Hello.".toList) = true ∧
    starts_with_hyphen ("<i>- Hi</i>".toList) = false ∧
    starts_with_hyphen ("- Hi".toList) = true ∧
    remove_html_tags ("a <think>b</think> c".toList) = "a  c".toList := by
  refine ⟨?_, ?_, ?_, ?_, ?_, ?_⟩ <;> decide

/-- C4, counterexample. The claim states every character of every raw cue's
stripped text appears in order in the concatenated reformatted output. For
the cue "Hello\n- there." the output is the single text "Hello there.":
the continuation hyphen of the stripped line "- there." (and of the stripped
cue content) is dropped, so neither is a subsequence of the output. -/
theorem claim4_counterexample :
    ¬ PySub (pyStrip ("- there.".toList))
        (((reformatSRTFile exC4cx_subs).map Subtitle.content).flatten) ∧
    ¬ PySub (pyStrip ("Hello\n- there.".toList))
        (((reformatSRTFile exC4cx_subs).map Subtitle.content).flatten) := by
  constructor
  · decide
  · decide

/- ------------------------------------------------------------------ -/
/- Coverage machinery for the amended C4.                              -/

theorem processLineRec_builder (st : ReformatState) (l : PyStr) :
    ∃ j c, pyIsSpace j = true ∧ pyStrip c = c ∧
      ((processLineRec st l).1).builder = st.builder ++ j :: c ∧
      ((processLineRec st l).2).2 = c := by
  simp only [processLineRec]
  split_ifs
  · exact ⟨' ', pyStrip ((pyStrip l).drop 1), rfl, pyStrip_idem _, by simp, rfl⟩
  · exact ⟨'\n', pyStrip l, rfl, pyStrip_idem _, by simp, rfl⟩
  · exact ⟨' ', pyStrip l, rfl, pyStrip_idem _, by simp, rfl⟩

theorem processLineRec_fst_pair (st : ReformatState) (l : PyStr) :
    ((processLineRec st l).2).1 = pyStrip l := by
  simp only [processLineRec]
  split_ifs <;> rfl

theorem processLineRec_pair (st : ReformatState) (l : PyStr) :
    ((processLineRec st l).2).2 = ((processLineRec st l).2).1 ∨
    ((processLineRec st l).2).2 = pyStrip ((((processLineRec st l).2).1).drop 1) := by
  simp only [processLineRec]
  split_ifs
  · right; rfl
  · left; rfl
  · left; rfl

theorem unit_step {st : ReformatState} {cur : List (List Char)}
    (h1 : PySub cur.flatten (pyStrip st.builder))
    (h2 : ∀ x ∈ cur, pyStrip x = x) (l : PyStr) :
    PySub ((cur ++ [((processLineRec st l).2).2]).flatten)
        (pyStrip ((processLineRec st l).1).builder) ∧
    (∀ x ∈ cur ++ [((processLineRec st l).2).2], pyStrip x = x) := by
  obtain ⟨j, c, hj, hc, hb, hcontr⟩ := processLineRec_builder st l
  rw [hb, hcontr]
  constructor
  · rw [List.flatten_append]
    simp only [List.flatten_cons, List.flatten_nil, List.append_nil]
    by_cases hcnil : c = []
    · subst hcnil
      rw [show st.builder ++ j :: ([] : PyStr) = st.builder ++ [j] from rfl,
        pyStrip_append_space hj]
      simpa using h1
    · rw [pyStrip_append_unit hj hc hcnil]
      by_cases hlb : pyLStrip st.builder = []
      · rw [if_pos hlb]
        have hs : pyStrip st.builder = [] := by
          show pyRStrip (pyLStrip st.builder) = []
          rw [hlb]
          rfl
        rw [hs] at h1
        rw [List.sublist_nil.mp h1]
        simp
      · rw [if_neg hlb]
        have hy : PySub (pyStrip st.builder) (pyLStrip st.builder) :=
          pyRStrip_sublist (pyLStrip st.builder)
        have hx : PySub cur.flatten (pyLStrip st.builder ++ [j]) :=
          (h1.trans hy).trans (List.sublist_append_left _ _)
        have hz := List.Sublist.append hx (List.Sublist.refl c)
        simpa using hz
  · intro x hx
    rcases List.mem_append.mp hx with h | h
    · exact h2 x h
    · simp only [List.mem_singleton] at h
      subst h
      exact hc

theorem processLinesRec_fields :
    ∀ (lines : List PyStr) (st : ReformatState),
      ((processLinesRec st lines).1).formatted = st.formatted ∧
      ((processLinesRec st lines).1).nextId = st.nextId ∧
      ((processLinesRec st lines).1).startSub = st.startSub := by
  intro lines
  induction lines with
  | nil => intro st; exact ⟨rfl, rfl, rfl⟩
  | cons l rest ih =>
    intro st
    rw [processLinesRec_cons]
    have h1 := ih (processLineRec st l).1
    have h2 := processLineRec_fields st l
    exact ⟨h1.1.trans h2.1, h1.2.1.trans h2.2.1, h1.2.2.trans h2.2.2⟩

theorem processLinesRec_nil (st : ReformatState) : processLinesRec st [] = (st, []) := rfl

theorem runReformatGo_nil (allSubs : List Subtitle) (st : ReformatState) :
    runReformatGo allSubs st [] = (st, []) := rfl

theorem processLinesRec_unit :
    ∀ (lines : List PyStr) (st : ReformatState) (cur : List (List Char)),
      PySub cur.flatten (pyStrip st.builder) →
      (∀ x ∈ cur, pyStrip x = x) →
      PySub ((cur ++ ((processLinesRec st lines).2.map Prod.snd)).flatten)
          (pyStrip ((processLinesRec st lines).1).builder) ∧
      (∀ x ∈ cur ++ ((processLinesRec st lines).2.map Prod.snd), pyStrip x = x) := by
  intro lines
  induction lines with
  | nil =>
    intro st cur h1 h2
    rw [processLinesRec_nil]
    constructor
    · simpa using h1
    · simpa using h2
  | cons l rest ih =>
    intro st cur h1 h2
    rw [processLinesRec_cons]
    have hstep := unit_step h1 h2 l
    have hmain := ih (processLineRec st l).1 (cur ++ [((processLineRec st l).2).2])
      hstep.1 hstep.2
    simpa [List.append_assoc] using hmain

theorem emitCheck_pos_formatted {st : ReformatState} (allSubs : List Subtitle)
    (sub : Subtitle) (h : ends_with_punctuation st.prevLine = true) :
    (emitCheck allSubs sub st).formatted =
      st.formatted ++ [⟨st.nextId, st.startSub.start, sub.stop, pyStrip st.builder⟩] := by
  simp [emitCheck, h]

theorem emitCheck_pos_builder {st : ReformatState} (allSubs : List Subtitle)
    (sub : Subtitle) (h : ends_with_punctuation st.prevLine = true) :
    (emitCheck allSubs sub st).builder = [] := by
  simp [emitCheck, h]

theorem runReformatGo_cov :
    ∀ (cues allSubs : List Subtitle) (st : ReformatState) (done cur : List (List Char)),
      PySub done.flatten ((st.formatted.map Subtitle.content).flatten) →
      PySub cur.flatten (pyStrip st.builder) →
      (∀ x ∈ cur, pyStrip x = x) →
      ∃ d2 c2 : List (List Char),
        done ++ cur ++ ((runReformatGo allSubs st cues).2.map Prod.snd) = d2 ++ c2 ∧
        PySub d2.flatten
          (((((runReformatGo allSubs st cues).1).formatted).map Subtitle.content).flatten) ∧
        PySub c2.flatten (pyStrip ((runReformatGo allSubs st cues).1).builder) ∧
        (∀ x ∈ c2, pyStrip x = x) := by
  intro cues
  induction cues with
  | nil =>
    intro allSubs st done cur hd hc hstr
    rw [runReformatGo_nil]
    exact ⟨done, cur, by simp, hd, hc, hstr⟩
  | cons sub rest ih =>
    intro allSubs st done cur hd hc hstr
    rw [runReformatGo_cons]
    dsimp only
    rw [processCueRec_fst, processCueRec_snd]
    have hlines := processLinesRec_unit (splitLines sub.content) st cur hc hstr
    have hfields := processLinesRec_fields (splitLines sub.content) st
    set st1 := (processLinesRec st (splitLines sub.content)).1 with hst1
    set recs := ((processLinesRec st (splitLines sub.content)).2).map Prod.snd with hrecs
    by_cases hpunct : ends_with_punctuation st1.prevLine = true
    · -- the cue closes a unit: everything accumulated so far is emitted
      have hform := emitCheck_pos_formatted allSubs sub hpunct
      have hbuild := emitCheck_pos_builder allSubs sub hpunct
      have hl1 : PySub (cur.flatten ++ recs.flatten) (pyStrip st1.builder) := by
        have h0 := hlines.1
        rwa [List.flatten_append] at h0
      have hdone2 : PySub ((done ++ (cur ++ recs)).flatten)
          ((((emitCheck allSubs sub st1).formatted).map Subtitle.content).flatten) := by
        rw [hform, hfields.1]
        simp only [List.flatten_append, List.map_append, List.map_cons, List.map_nil,
          List.flatten_cons, List.flatten_nil, List.append_nil]
        exact List.Sublist.append hd hl1
      have hmain := ih allSubs (emitCheck allSubs sub st1) (done ++ (cur ++ recs)) []
        hdone2 (by rw [hbuild]; simp) (by simp)
      obtain ⟨d2, c2, heq, hd2, hc2, hs2⟩ := hmain
      refine ⟨d2, c2, ?_, hd2, hc2, hs2⟩
      rw [← heq]
      simp [List.append_assoc]
    · -- no emission: the unit keeps accumulating
      have hfalse : ends_with_punctuation st1.prevLine = false := by
        simpa using hpunct
      have hemit : emitCheck allSubs sub st1 = st1 :=
        emitCheck_of_no_punct allSubs sub st1 hfalse
      rw [hemit]
      have hmain := ih allSubs st1 done (cur ++ recs)
        (by rw [hfields.1]; exact hd) hlines.1 hlines.2
      obtain ⟨d2, c2, heq, hd2, hc2, hs2⟩ := hmain
      refine ⟨d2, c2, ?_, hd2, hc2, hs2⟩
      rw [← heq]
      simp [List.append_assoc]

theorem processLinesRec_pairs :
    ∀ (lines : List PyStr) (st : ReformatState),
      (∀ p ∈ (processLinesRec st lines).2, p.2 = p.1 ∨ p.2 = pyStrip ((p.1).drop 1)) ∧
      ((processLinesRec st lines).2).map Prod.fst = lines.map pyStrip := by
  intro lines
  induction lines with
  | nil => intro st; rw [processLinesRec_nil]; exact ⟨by simp, by simp⟩
  | cons l rest ih =>
    intro st
    rw [processLinesRec_cons]
    constructor
    · intro p hp
      rcases List.mem_cons.mp hp with h | h
      · subst h; exact processLineRec_pair st l
      · exact (ih (processLineRec st l).1).1 p h
    · simp only [List.map_cons]
      rw [processLineRec_fst_pair, (ih (processLineRec st l).1).2]

theorem runReformatGo_pairs :
    ∀ (cues allSubs : List Subtitle) (st : ReformatState),
      (∀ p ∈ (runReformatGo allSubs st cues).2, p.2 = p.1 ∨ p.2 = pyStrip ((p.1).drop 1)) ∧
      ((runReformatGo allSubs st cues).2).map Prod.fst =
        ((cues.map (fun s => splitLines s.content)).flatten).map pyStrip := by
  intro cues
  induction cues with
  | nil => intro allSubs st; rw [runReformatGo_nil]; exact ⟨by simp, by simp⟩
  | cons sub rest ih =>
    intro allSubs st
    rw [runReformatGo_cons]
    dsimp only
    rw [processCueRec_snd]
    constructor
    · intro p hp
      rcases List.mem_append.mp hp with h | h
      · exact (processLinesRec_pairs (splitLines sub.content) st).1 p h
      · exact (ih allSubs (processCueRec allSubs st sub).1).1 p h
    · rw [List.map_append, (processLinesRec_pairs (splitLines sub.content) st).2,
        (ih allSubs (processCueRec allSubs st sub).1).2]
      simp

/-- C4, amended. Provided the accumulator is empty at end of track (the final
unit was emitted; otherwise its text is discarded, claim C3), every character
contributed to the accumulator appears, in order, in the concatenation of the
output texts; the per-line contribution is the stripped raw display line
itself, except that a line joined as a hyphen continuation loses its leading
character (the hyphen) together with the whitespace around the remainder. -/
theorem claim4_amended_coverage (subs : List Subtitle)
    (h : ((runReformat subs).1).builder = []) :
    PySub ((((runReformat subs).2).map Prod.snd).flatten)
        (((reformatSRTFile subs).map Subtitle.content).flatten) ∧
    (∀ p ∈ (runReformat subs).2, p.2 = p.1 ∨ p.2 = pyStrip ((p.1).drop 1)) ∧
    ((runReformat subs).2).map Prod.fst =
      ((subs.map (fun s => splitLines s.content)).flatten).map pyStrip := by
  refine ⟨?_, (runReformatGo_pairs subs subs (initReformatState subs)).1,
    (runReformatGo_pairs subs subs (initReformatState subs)).2⟩
  obtain ⟨d2, c2, heq, hd2, hc2, _⟩ :=
    runReformatGo_cov subs subs (initReformatState subs) [] []
      (List.nil_sublist _) (List.nil_sublist _) (by simp)
  have heq2 : ((runReformat subs).2).map Prod.snd = d2 ++ c2 := by
    simpa using heq
  have hc0 : c2.flatten = [] := by
    have hx : PySub c2.flatten [] := by
      have hy := hc2
      have hb : ((runReformatGo subs (initReformatState subs) subs).1).builder = [] := h
      rw [hb] at hy
      exact hy
    exact List.sublist_nil.mp hx
  rw [heq2, List.flatten_append, hc0, List.append_nil]
  exact hd2

/-- C4, witness for the amended coverage theorem on a concrete
punctuation-terminated hyphenated track. -/
theorem claim4_amended_witness :
    ((runReformat exC4_subs).1).builder = [] ∧
    (PySub ((((runReformat exC4_subs).2).map Prod.snd).flatten)
        (((reformatSRTFile exC4_subs).map Subtitle.content).flatten) ∧
      (∀ p ∈ (runReformat exC4_subs).2, p.2 = p.1 ∨ p.2 = pyStrip ((p.1).drop 1)) ∧
      ((runReformat exC4_subs).2).map Prod.fst =
        ((exC4_subs.map (fun s => splitLines s.content)).flatten).map pyStrip) :=
  ⟨by decide, claim4_amended_coverage exC4_subs (by decide)⟩

/- ------------------------------------------------------------------ -/
/- Driver support lemmas.                                              -/

theorem runBatches_nil (oracle : Oracle) (st : TransState) :
    runBatches oracle st [] = (st, []) := rfl

theorem runBatches_cons (oracle : Oracle) (st : TransState) (i : Nat) (rest : List Nat) :
    runBatches oracle st (i :: rest) =
      ((runBatches oracle (stepBatch oracle st i).1 rest).1,
        (stepBatch oracle st i).2 :: (runBatches oracle (stepBatch oracle st i).1 rest).2) := rfl

theorem stepBatch_skip {oracle : Oracle} {st : TransState} {i : Nat}
    (h : isClosedContent ((st.subs.getD i defaultSubtitle).content) = true) :
    stepBatch oracle st i = (st, ⟨i, true, st.prev, st.future, [], []⟩) := by
  have h2 : isClosedContent ((st.subs[i]?.getD defaultSubtitle).content) = true := by
    simpa [List.getD_eq_getElem?_getD] using h
  simp [stepBatch, h2]

theorem stepBatch_go {oracle : Oracle} {st : TransState} {i : Nat}
    (h : isClosedContent ((st.subs.getD i defaultSubtitle).content) = false) :
    stepBatch oracle st i =
      (⟨(applyBatch st.subs st.prev i
            (((st.subs.drop i).take TRANSLATION_BATCH_LENGTH).zip
              (translate_batch oracle st.prev
                (update_future_subs (i + TRANSLATION_BATCH_LENGTH) st.subs)
                ((st.subs.drop i).take TRANSLATION_BATCH_LENGTH)))).1,
         (applyBatch st.subs st.prev i
            (((st.subs.drop i).take TRANSLATION_BATCH_LENGTH).zip
              (translate_batch oracle st.prev
                (update_future_subs (i + TRANSLATION_BATCH_LENGTH) st.subs)
                ((st.subs.drop i).take TRANSLATION_BATCH_LENGTH)))).2,
         update_future_subs (i + TRANSLATION_BATCH_LENGTH) st.subs⟩,
       ⟨i, false, st.prev, update_future_subs (i + TRANSLATION_BATCH_LENGTH) st.subs,
         (st.subs.drop i).take TRANSLATION_BATCH_LENGTH,
         translate_batch oracle st.prev
           (update_future_subs (i + TRANSLATION_BATCH_LENGTH) st.subs)
           ((st.subs.drop i).take TRANSLATION_BATCH_LENGTH)⟩) := by
  have h2 : isClosedContent ((st.subs[i]?.getD defaultSubtitle).content) = false := by
    simpa [List.getD_eq_getElem?_getD] using h
  simp [stepBatch, h2]

theorem trimPrevGo_bound :
    ∀ (fuel : Nat) (l : List (PyStr × PyStr)),
      l.length ≤ fuel + SUBTITLE_CONTEXT_COUNT →
      (trimPrevGo fuel l).length ≤ SUBTITLE_CONTEXT_COUNT := by
  intro fuel
  induction fuel with
  | zero => intro l h; simpa [trimPrevGo] using h
  | succ n ih =>
    intro l h
    by_cases hl : SUBTITLE_CONTEXT_COUNT < l.length
    · have := ih l.tail (by simp [List.length_tail]; omega)
      simpa [trimPrevGo, hl] using this
    · simp [trimPrevGo, hl]
      omega

theorem trimPrev_bound (l : List (PyStr × PyStr)) :
    (trimPrev l).length ≤ SUBTITLE_CONTEXT_COUNT :=
  trimPrevGo_bound l.length l (by omega)

theorem append_prev_bound (prev : List (PyStr × PyStr)) (p : PyStr × PyStr) :
    (append_prev_subs_and_translations prev p).length ≤ SUBTITLE_CONTEXT_COUNT :=
  trimPrev_bound (prev ++ [p])

theorem futureGo_eq :
    ∀ (l : List PyStr) (acc : List PyStr), acc.length < SUBTITLE_CONTEXT_COUNT →
      futureGo acc l = acc ++ (l.map pyStrip).take (SUBTITLE_CONTEXT_COUNT - acc.length) := by
  intro l
  induction l with
  | nil => intro acc _; simp [futureGo]
  | cons s r ih =>
    intro acc hacc
    show (if SUBTITLE_CONTEXT_COUNT ≤ (acc ++ [pyStrip s]).length
        then acc ++ [pyStrip s] else futureGo (acc ++ [pyStrip s]) r) = _
    by_cases hfull : SUBTITLE_CONTEXT_COUNT ≤ (acc ++ [pyStrip s]).length
    · rw [if_pos hfull]
      have hlen : SUBTITLE_CONTEXT_COUNT - acc.length = 1 := by
        simp at hfull
        omega
      rw [hlen]
      simp
    · rw [if_neg hfull]
      have hlt : (acc ++ [pyStrip s]).length < SUBTITLE_CONTEXT_COUNT := by omega
      rw [ih (acc ++ [pyStrip s]) hlt]
      have harith : SUBTITLE_CONTEXT_COUNT - acc.length =
          (SUBTITLE_CONTEXT_COUNT - (acc ++ [pyStrip s]).length) + 1 := by
        simp
        omega
      rw [List.map_cons, harith, List.take_succ_cons]
      simp

theorem update_future_eq (index : Nat) (subs : List Subtitle) :
    update_future_subs index subs =
      ((subs.drop index).map (fun s => pyStrip s.content)).take SUBTITLE_CONTEXT_COUNT := by
  show futureGo [] ((subs.drop index).map Subtitle.content) = _
  rw [futureGo_eq _ [] (by decide)]
  simp [List.map_map]
  rfl

theorem update_future_bound (index : Nat) (subs : List Subtitle) :
    (update_future_subs index subs).length ≤ SUBTITLE_CONTEXT_COUNT := by
  rw [update_future_eq]
  exact List.length_take_le _ _

theorem getD_set_ne {l : List Subtitle} {i j : Nat} (h : i ≠ j) (a d : Subtitle) :
    (l.set i a).getD j d = l.getD j d := by
  simp [List.getD_eq_getElem?_getD, List.getElem?_set_ne h]

theorem getD_set_self {l : List Subtitle} {i : Nat} (h : i < l.length) (a d : Subtitle) :
    (l.set i a).getD i d = a := by
  simp [List.getD_eq_getElem?_getD, List.getElem?_set_self h]

theorem getD_of_drop_eq {l1 l2 : List Subtitle} {m : Nat} (h : l1.drop m = l2.drop m)
    (d : Subtitle) : l1.getD m d = l2.getD m d := by
  have h1 : l1[m]? = l2[m]? := by
    have e1 := List.getElem?_drop l1 m 0
    have e2 := List.getElem?_drop l2 m 0
    rw [Nat.add_zero] at e1 e2
    rw [← e1, ← e2, h]
  simp [List.getD_eq_getElem?_getD, h1]

theorem drop_eq_mono {l1 l2 : List Subtitle} {c m : Nat} (hcm : c ≤ m)
    (h : l1.drop c = l2.drop c) : l1.drop m = l2.drop m := by
  have e1 : l1.drop m = (l1.drop c).drop (m - c) := by
    rw [List.drop_drop]
    congr 1
    omega
  have e2 : l2.drop m = (l2.drop c).drop (m - c) := by
    rw [List.drop_drop]
    congr 1
    omega
  rw [e1, e2, h]

theorem getD_take_drop {l : List Subtitle} {i n k : Nat} (hk : k < n)
    (d : Subtitle) :
    ((l.drop i).take n).getD k d = l.getD (i + k) d := by
  have h1 : ((l.drop i).take n)[k]? = (l.drop i)[k]? := List.getElem?_take_of_lt hk
  simp [List.getD_eq_getElem?_getD, h1, List.getElem?_drop]

theorem applyBatch_cons (subs : List Subtitle) (prev : List (PyStr × PyStr)) (i : Nat)
    (sub : Subtitle) (t : PyStr) (rest : List (Subtitle × PyStr)) :
    applyBatch subs prev i ((sub, t) :: rest) =
      applyBatch (subs.set i (closeCue sub (pyStrip (pyStrip t))))
        (append_prev_subs_and_translations prev (remove_html_tags sub.content, pyStrip t))
        (i + 1) rest := rfl

theorem applyBatch_length :
    ∀ (z : List (Subtitle × PyStr)) (subs : List Subtitle)
      (prev : List (PyStr × PyStr)) (i : Nat),
      ((applyBatch subs prev i z).1).length = subs.length := by
  intro z
  induction z with
  | nil => intro subs prev i; rfl
  | cons p rest ih =>
    intro subs prev i
    obtain ⟨sub, t⟩ := p
    rw [applyBatch_cons, ih]
    simp

theorem applyBatch_getD_outside :
    ∀ (z : List (Subtitle × PyStr)) (subs : List Subtitle)
      (prev : List (PyStr × PyStr)) (i m : Nat),
      (m < i ∨ i + z.length ≤ m) →
      ((applyBatch subs prev i z).1).getD m defaultSubtitle = subs.getD m defaultSubtitle := by
  intro z
  induction z with
  | nil => intro subs prev i m _; rfl
  | cons p rest ih =>
    intro subs prev i m hm
    obtain ⟨sub, t⟩ := p
    rw [applyBatch_cons]
    have hm2 : m < i + 1 ∨ (i + 1) + rest.length ≤ m := by
      rcases hm with h | h
      · left; omega
      · right; simp at h; omega
    rw [ih _ _ _ _ hm2]
    have hne : i ≠ m := by
      rcases hm with h | h
      · omega
      · simp at h; omega
    exact getD_set_ne hne _ _

theorem applyBatch_drop :
    ∀ (z : List (Subtitle × PyStr)) (subs : List Subtitle)
      (prev : List (PyStr × PyStr)) (i m : Nat),
      i + z.length ≤ m →
      ((applyBatch subs prev i z).1).drop m = subs.drop m := by
  intro z
  induction z with
  | nil => intro subs prev i m _; rfl
  | cons p rest ih =>
    intro subs prev i m hm
    obtain ⟨sub, t⟩ := p
    rw [applyBatch_cons]
    rw [ih _ _ _ _ (by simp at hm; omega)]
    exact List.drop_set_of_lt _ _ (by simp at hm; omega)

theorem applyBatch_getD_in :
    ∀ (z : List (Subtitle × PyStr)) (subs : List Subtitle)
      (prev : List (PyStr × PyStr)) (i k : Nat),
      k < z.length → i + k < subs.length →
      ((applyBatch subs prev i z).1).getD (i + k) defaultSubtitle =
        closeCue ((z.getD k (defaultSubtitle, [])).1)
          (pyStrip (pyStrip ((z.getD k (defaultSubtitle, [])).2))) := by
  intro z
  induction z with
  | nil => intro subs prev i k hk _; simp at hk
  | cons p rest ih =>
    intro subs prev i k hk hik
    obtain ⟨sub, t⟩ := p
    rw [applyBatch_cons]
    cases k with
    | zero =>
      have hout : (i + 0 < i + 1 ∨ (i + 1) + rest.length ≤ i + 0) := by left; omega
      rw [applyBatch_getD_outside rest _ _ _ _ hout]
      have hlen : i < subs.length := by omega
      rw [Nat.add_zero]
      rw [getD_set_self hlen]
      rfl
    | succ k2 =>
      have he : i + (k2 + 1) = (i + 1) + k2 := by omega
      rw [he, ih _ _ _ k2 (by simpa using hk) (by simp; omega)]
      rfl

theorem applyBatch_prev_bound :
    ∀ (z : List (Subtitle × PyStr)) (subs : List Subtitle)
      (prev : List (PyStr × PyStr)) (i : Nat),
      prev.length ≤ SUBTITLE_CONTEXT_COUNT →
      ((applyBatch subs prev i z).2).length ≤ SUBTITLE_CONTEXT_COUNT := by
  intro z
  induction z with
  | nil => intro subs prev i h; exact h
  | cons p rest ih =>
    intro subs prev i _
    obtain ⟨sub, t⟩ := p
    rw [applyBatch_cons]
    exact ih _ _ _ (append_prev_bound _ _)

theorem getD_zip (l : List Subtitle) (r : List PyStr) (k : Nat)
    (hk1 : k < l.length) (hk2 : k < r.length) :
    (l.zip r).getD k (defaultSubtitle, []) = (l.getD k defaultSubtitle, r.getD k []) := by
  have hlen : k < (l.zip r).length := by
    rw [List.length_zip]
    omega
  simp [List.getD_eq_getElem?_getD, List.getElem?_eq_getElem hlen,
    List.getElem?_eq_getElem hk1, List.getElem?_eq_getElem hk2, List.getElem_zip]

theorem runBatches_master (oracle : Oracle) (orig : List Subtitle) :
    ∀ (starts : List Nat) (st : TransState) (c : Nat),
      ChainFrom c starts →
      (∀ i ∈ starts, i < orig.length) →
      st.subs.length = orig.length →
      st.subs.drop c = orig.drop c →
      st.prev.length ≤ SUBTITLE_CONTEXT_COUNT →
      st.future.length ≤ SUBTITLE_CONTEXT_COUNT →
      (((runBatches oracle st starts).1).subs.length = orig.length) ∧
      (∀ m, m < c →
        ((runBatches oracle st starts).1).subs.getD m defaultSubtitle =
          st.subs.getD m defaultSubtitle) ∧
      (((runBatches oracle st starts).2).map (fun e => e.startIndex) = starts) ∧
      (∀ e ∈ (runBatches oracle st starts).2,
        e.prevCtx.length ≤ SUBTITLE_CONTEXT_COUNT ∧
        e.futureCtx.length ≤ SUBTITLE_CONTEXT_COUNT ∧
        e.skipped = isClosedContent ((orig.getD e.startIndex defaultSubtitle).content) ∧
        (e.skipped = true →
          ∀ m, e.startIndex ≤ m → m < e.startIndex + TRANSLATION_BATCH_LENGTH →
            ((runBatches oracle st starts).1).subs.getD m defaultSubtitle =
              orig.getD m defaultSubtitle) ∧
        (e.skipped = false →
          e.batch = (orig.drop e.startIndex).take TRANSLATION_BATCH_LENGTH ∧
          e.futureCtx = ((orig.drop (e.startIndex + TRANSLATION_BATCH_LENGTH)).map
            (fun s => pyStrip s.content)).take SUBTITLE_CONTEXT_COUNT ∧
          e.translations = (oracle e.prevCtx e.futureCtx e.batch).getD [] ∧
          (∀ k, k < e.batch.length →
            ((runBatches oracle st starts).1).subs.getD (e.startIndex + k) defaultSubtitle =
              (if k < e.translations.length
               then closeCue (orig.getD (e.startIndex + k) defaultSubtitle)
                 (pyStrip (pyStrip (e.translations.getD k [])))
               else orig.getD (e.startIndex + k) defaultSubtitle)))) := by
  intro starts
  induction starts with
  | nil =>
    intro st c _ _ hlen _ _ _
    rw [runBatches_nil]
    exact ⟨hlen, fun m _ => rfl, rfl, by simp⟩
  | cons i rest ih =>
    intro st c hchain hin hlen hagree hprev hfut
    obtain ⟨hci, hchain2⟩ := hchain
    have hi_lt : i < orig.length := hin i (by simp)
    have hagree_i : st.subs.drop i = orig.drop i := drop_eq_mono hci hagree
    have hgetD_i : st.subs.getD i defaultSubtitle = orig.getD i defaultSubtitle :=
      getD_of_drop_eq hagree_i _
    rw [runBatches_cons]
    by_cases hskip : isClosedContent ((st.subs.getD i defaultSubtitle).content) = true
    · -- skipped batch: the state is unchanged
      rw [stepBatch_skip hskip]
      dsimp only
      obtain ⟨ihlen, ihlow, ihmap, ihent⟩ := ih st (i + TRANSLATION_BATCH_LENGTH) hchain2
        (fun j hj => hin j (by simp [hj]))
        hlen (drop_eq_mono (by omega) hagree) hprev hfut
      refine ⟨ihlen, ?_, ?_, ?_⟩
      · intro m hm
        exact ihlow m (by omega)
      · simp [ihmap]
      · intro e he
        rcases List.mem_cons.mp he with rfl | he2
        · refine ⟨hprev, hfut, ?_, ?_, ?_⟩
          · show true = _
            rw [← hgetD_i, hskip]
          · intro _ m hm1 hm2
            have hm1b : i ≤ m := hm1
            have hm2b : m < i + TRANSLATION_BATCH_LENGTH := hm2
            have h1 := ihlow m (by omega)
            rw [h1]
            exact getD_of_drop_eq (drop_eq_mono (by omega) hagree) _
          · intro hfalse
            simp at hfalse
        · exact ihent e he2
    · -- translated batch
      have hskip2 : isClosedContent ((st.subs.getD i defaultSubtitle).content) = false := by
        simpa using hskip
      rw [stepBatch_go hskip2]
      dsimp only
      set batch := (st.subs.drop i).take TRANSLATION_BATCH_LENGTH with hbatch
      set fut := update_future_subs (i + TRANSLATION_BATCH_LENGTH) st.subs with hfutdef
      set ts := translate_batch oracle st.prev fut batch with hts
      set z := batch.zip ts with hz
      have hbatch_le : batch.length ≤ TRANSLATION_BATCH_LENGTH := by
        rw [hbatch]
        exact List.length_take_le _ _
      have hz_le : z.length ≤ TRANSLATION_BATCH_LENGTH := by
        rw [hz, List.length_zip]
        omega
      have hstep_len : ((applyBatch st.subs st.prev i z).1).length = orig.length := by
        rw [applyBatch_length]
        exact hlen
      have hstep_agree : ((applyBatch st.subs st.prev i z).1).drop
          (i + TRANSLATION_BATCH_LENGTH) = orig.drop (i + TRANSLATION_BATCH_LENGTH) := by
        rw [applyBatch_drop _ _ _ _ _ (by omega)]
        exact drop_eq_mono (by omega) hagree
      obtain ⟨ihlen, ihlow, ihmap, ihent⟩ := ih
        ⟨(applyBatch st.subs st.prev i z).1, (applyBatch st.subs st.prev i z).2, fut⟩
        (i + TRANSLATION_BATCH_LENGTH) hchain2 (fun j hj => hin j (by simp [hj]))
        hstep_len hstep_agree (applyBatch_prev_bound _ _ _ _ hprev)
        (by rw [hfutdef]; exact update_future_bound _ _)
      refine ⟨ihlen, ?_, ?_, ?_⟩
      · intro m hm
        rw [ihlow m (by omega)]
        exact applyBatch_getD_outside _ _ _ _ _ (Or.inl (by omega))
      · simp [ihmap]
      · intro e he
        rcases List.mem_cons.mp he with rfl | he2
        · refine ⟨hprev, by rw [hfutdef]; exact update_future_bound _ _, ?_, ?_, ?_⟩
          · show false = _
            rw [← hgetD_i, hskip2]
          · intro habs
            simp at habs
          · intro _
            have hbatch_orig : batch = (orig.drop i).take TRANSLATION_BATCH_LENGTH := by
              rw [hbatch, hagree_i]
            have hfut_orig : fut = ((orig.drop (i + TRANSLATION_BATCH_LENGTH)).map
                (fun s => pyStrip s.content)).take SUBTITLE_CONTEXT_COUNT := by
              rw [hfutdef, update_future_eq, drop_eq_mono (by omega) hagree]
            refine ⟨hbatch_orig, hfut_orig, rfl, ?_⟩
            intro k hk
            have hk2 : k < batch.length := hk
            have hkB : k < TRANSLATION_BATCH_LENGTH := by omega
            have hik_lt : i + k < orig.length := by
              have hk3 := hk2
              rw [hbatch] at hk3
              simp only [List.length_take, List.length_drop] at hk3
              omega
            show ((runBatches oracle ⟨(applyBatch st.subs st.prev i z).1,
                (applyBatch st.subs st.prev i z).2, fut⟩ rest).1).subs.getD (i + k)
                defaultSubtitle =
              (if k < ts.length
               then closeCue (orig.getD (i + k) defaultSubtitle)
                 (pyStrip (pyStrip (ts.getD k [])))
               else orig.getD (i + k) defaultSubtitle)
            have hfin := ihlow (i + k) (by omega)
            dsimp only at hfin
            rw [hfin]
            by_cases hkts : k < ts.length
            · have hkz : k < z.length := by
                rw [hz, List.length_zip]
                omega
              rw [applyBatch_getD_in z st.subs st.prev i k hkz (by omega)]
              rw [hz, getD_zip batch ts k hk2 hkts]
              rw [if_pos hkts]
              have hb1 : batch.getD k defaultSubtitle = orig.getD (i + k) defaultSubtitle := by
                rw [hbatch, getD_take_drop hkB]
                exact getD_of_drop_eq (drop_eq_mono (by omega) hagree) _
              rw [hb1]
            · have hzk : i + z.length ≤ i + k := by
                rw [hz, List.length_zip]
                omega
              rw [applyBatch_getD_outside _ _ _ _ _ (Or.inr hzk)]
              rw [if_neg hkts]
              exact getD_of_drop_eq (drop_eq_mono (by omega) hagree) _
        · exact ihent e he2

theorem chainFrom_range' :
    ∀ (cnt a : Nat), ChainFrom a (List.range' a cnt TRANSLATION_BATCH_LENGTH) := by
  intro cnt
  induction cnt with
  | zero => intro a; exact trivial
  | succ n ihn =>
    intro a
    rw [List.range'_succ]
    exact ⟨Nat.le_refl a, ihn (a + TRANSLATION_BATCH_LENGTH)⟩

theorem chainFrom_batchStarts (n : Nat) : ChainFrom 0 (batchStarts n) :=
  chainFrom_range' _ 0

theorem mem_batchStarts_lt {n i : Nat} (h : i ∈ batchStarts n) : i < n := by
  have hB : TRANSLATION_BATCH_LENGTH = 4 := rfl
  unfold batchStarts at h
  rw [List.mem_range'] at h
  obtain ⟨t, ht, rfl⟩ := h
  rw [hB] at ht ⊢
  have h2 : t + 1 ≤ (n + 4 - 1) / 4 := ht
  have h3 : (t + 1) * 4 ≤ n + 4 - 1 := (Nat.le_div_iff_mul_le (by omega)).mp h2
  omega

theorem mul_mem_batchStarts {n k : Nat} (h : TRANSLATION_BATCH_LENGTH * k < n) :
    TRANSLATION_BATCH_LENGTH * k ∈ batchStarts n := by
  have hB : TRANSLATION_BATCH_LENGTH = 4 := rfl
  unfold batchStarts
  rw [List.mem_range']
  refine ⟨k, ?_, by omega⟩
  rw [hB] at h ⊢
  have h2 : (k + 1) * 4 ≤ n + 4 - 1 := by omega
  have h3 : k + 1 ≤ (n + 4 - 1) / 4 := (Nat.le_div_iff_mul_le (by omega)).mpr h2
  omega

/-- The master lemma instantiated at a full run of `translateSRTFile`. -/
theorem runTranslate_master (oracle : Oracle) (subs : List Subtitle) :
    ((translateSRTFile oracle subs).length = subs.length) ∧
    (((translateSRTRun oracle subs).2).map (fun e => e.startIndex) = batchStarts subs.length) ∧
    (∀ e ∈ (translateSRTRun oracle subs).2,
      e.prevCtx.length ≤ SUBTITLE_CONTEXT_COUNT ∧
      e.futureCtx.length ≤ SUBTITLE_CONTEXT_COUNT ∧
      e.skipped = isClosedContent ((subs.getD e.startIndex defaultSubtitle).content) ∧
      (e.skipped = true →
        ∀ m, e.startIndex ≤ m → m < e.startIndex + TRANSLATION_BATCH_LENGTH →
          (translateSRTFile oracle subs).getD m defaultSubtitle =
            subs.getD m defaultSubtitle) ∧
      (e.skipped = false →
        e.batch = (subs.drop e.startIndex).take TRANSLATION_BATCH_LENGTH ∧
        e.futureCtx = ((subs.drop (e.startIndex + TRANSLATION_BATCH_LENGTH)).map
          (fun s => pyStrip s.content)).take SUBTITLE_CONTEXT_COUNT ∧
        e.translations = (oracle e.prevCtx e.futureCtx e.batch).getD [] ∧
        (∀ k, k < e.batch.length →
          (translateSRTFile oracle subs).getD (e.startIndex + k) defaultSubtitle =
            (if k < e.translations.length
             then closeCue (subs.getD (e.startIndex + k) defaultSubtitle)
               (pyStrip (pyStrip (e.translations.getD k [])))
             else subs.getD (e.startIndex + k) defaultSubtitle)))) := by
  obtain ⟨h1, _, h3, h4⟩ := runBatches_master oracle subs (batchStarts subs.length)
    ⟨subs, [], []⟩ 0 (chainFrom_batchStarts _) (fun i hi => mem_batchStarts_lt hi)
    rfl rfl (by simp) (by simp)
  exact ⟨h1, h3, h4⟩

theorem stepBatch_prevCtx (oracle : Oracle) (st : TransState) (i : Nat) :
    ((stepBatch oracle st i).2).prevCtx = st.prev := by
  by_cases h : isClosedContent ((st.subs.getD i defaultSubtitle).content) = true
  · rw [stepBatch_skip h]
  · rw [stepBatch_go (by simpa using h)]

theorem stepBatch_skipped_state (oracle : Oracle) (st : TransState) (i : Nat) :
    ((stepBatch oracle st i).2).skipped = true → (stepBatch oracle st i).1 = st := by
  by_cases h : isClosedContent ((st.subs.getD i defaultSubtitle).content) = true
  · rw [stepBatch_skip h]
    intro _
    rfl
  · rw [stepBatch_go (by simpa using h)]
    intro habs
    simp at habs

theorem runBatches_prev_nil (oracle : Oracle) :
    ∀ (starts : List Nat) (st : TransState), st.prev = [] →
      ∀ (t1 : List BatchRecord) (e : BatchRecord) (t2 : List BatchRecord),
        (runBatches oracle st starts).2 = t1 ++ e :: t2 →
        (∀ x ∈ t1, x.skipped = true) →
        e.prevCtx = [] := by
  intro starts
  induction starts with
  | nil =>
    intro st hprev t1 e t2 heq _
    rw [runBatches_nil] at heq
    cases t1 <;> simp at heq
  | cons i rest ih =>
    intro st hprev t1 e t2 heq hskips
    rw [runBatches_cons] at heq
    dsimp only at heq
    cases t1 with
    | nil =>
      simp only [List.nil_append, List.cons.injEq] at heq
      rw [← heq.1, stepBatch_prevCtx]
      exact hprev
    | cons a t1' =>
      simp only [List.cons_append, List.cons.injEq] at heq
      obtain ⟨ha, heq2⟩ := heq
      have haskip : ((stepBatch oracle st i).2).skipped = true := by
        rw [ha]
        exact hskips a (by simp)
      have hstate := stepBatch_skipped_state oracle st i haskip
      exact ih (stepBatch oracle st i).1 (by rw [hstate]; exact hprev) t1' e t2 heq2
        (fun x hx => hskips x (by simp [hx]))

/-- C6. At every batch position, the previous-context list and the
future-context list each have length at most SUBTITLE_CONTEXT_COUNT, and for
a translated batch the future context is exactly the stripped contents of the
cues strictly after the end of the batch slice (never the batch itself),
truncated at track end and at the context count. -/
theorem claim6_context_bounds (oracle : Oracle) (subs : List Subtitle) (e : BatchRecord)
    (he : e ∈ (translateSRTRun oracle subs).2) :
    e.prevCtx.length ≤ SUBTITLE_CONTEXT_COUNT ∧
    e.futureCtx.length ≤ SUBTITLE_CONTEXT_COUNT ∧
    (e.skipped = false →
      e.futureCtx = ((subs.drop (e.startIndex + TRANSLATION_BATCH_LENGTH)).map
        (fun s => pyStrip s.content)).take SUBTITLE_CONTEXT_COUNT) := by
  obtain ⟨_, _, h4⟩ := runTranslate_master oracle subs
  obtain ⟨hp, hf, _, _, hns⟩ := h4 e he
  exact ⟨hp, hf, fun h => (hns h).2.1⟩

/-- C6, witness: the second batch of a six-cue run has four previous pairs
and an empty future window, both within bounds. -/
theorem claim6_witness :
    exC6_rec ∈ (translateSRTRun exC6_oracle exC6_subs).2 ∧
    (exC6_rec.prevCtx.length ≤ SUBTITLE_CONTEXT_COUNT ∧
      exC6_rec.futureCtx.length ≤ SUBTITLE_CONTEXT_COUNT ∧
      (exC6_rec.skipped = false →
        exC6_rec.futureCtx = ((exC6_subs.drop (exC6_rec.startIndex +
            TRANSLATION_BATCH_LENGTH)).map
          (fun s => pyStrip s.content)).take SUBTITLE_CONTEXT_COUNT)) :=
  ⟨by decide, claim6_context_bounds exC6_oracle exC6_subs exC6_rec (by decide)⟩

/-- C7. For a track whose first M cues are closed (M a multiple of the batch
length) and whose cue M+1 is open, every batch starting before M is skipped,
the cues of every skipped batch are returned unchanged, some batch starts
exactly at M and is translated, and no batch before M is translated. -/
theorem claim7_resumability (oracle : Oracle) (subs : List Subtitle) (M k : Nat)
    (hM : M = TRANSLATION_BATCH_LENGTH * k) (hlt : M < subs.length)
    (hclosed : ∀ j, j < M → isClosedContent ((subs.getD j defaultSubtitle).content) = true)
    (hopen : isClosedContent ((subs.getD M defaultSubtitle).content) = false) :
    (∀ e ∈ (translateSRTRun oracle subs).2, e.startIndex < M → e.skipped = true) ∧
    (∀ e ∈ (translateSRTRun oracle subs).2, e.skipped = true →
      ∀ m, e.startIndex ≤ m → m < e.startIndex + TRANSLATION_BATCH_LENGTH →
        (translateSRTFile oracle subs).getD m defaultSubtitle =
          subs.getD m defaultSubtitle) ∧
    (∃ e, e ∈ (translateSRTRun oracle subs).2 ∧ e.startIndex = M ∧ e.skipped = false) ∧
    (∀ e ∈ (translateSRTRun oracle subs).2, e.skipped = false → M ≤ e.startIndex) := by
  obtain ⟨_, h3, h4⟩ := runTranslate_master oracle subs
  refine ⟨?_, ?_, ?_, ?_⟩
  · intro e he hlt2
    obtain ⟨_, _, hsk, _, _⟩ := h4 e he
    rw [hsk]
    exact hclosed e.startIndex hlt2
  · intro e he hskip m hm1 hm2
    obtain ⟨_, _, _, hget, _⟩ := h4 e he
    exact hget hskip m hm1 hm2
  · have hlt2 : TRANSLATION_BATCH_LENGTH * k < subs.length := hM ▸ hlt
    have hmem : M ∈ batchStarts subs.length := by
      rw [hM]
      exact mul_mem_batchStarts hlt2
    rw [← h3] at hmem
    obtain ⟨e, he, heq⟩ := List.mem_map.mp hmem
    refine ⟨e, he, heq, ?_⟩
    obtain ⟨_, _, hsk, _, _⟩ := h4 e he
    rw [hsk, heq]
    exact hopen
  · intro e he hns
    obtain ⟨_, _, hsk, _, _⟩ := h4 e he
    by_contra hcon
    push_neg at hcon
    have hcl := hclosed e.startIndex hcon
    rw [hsk] at hns
    rw [hcl] at hns
    simp at hns

/-- C7, witness: a track whose first four cues carry the markup resumes at
cue 5 (index 4). -/
theorem claim7_witness :
    ((4 : Nat) = TRANSLATION_BATCH_LENGTH * 1 ∧ 4 < exC7_subs.length ∧
      (∀ j, j < 4 → isClosedContent ((exC7_subs.getD j defaultSubtitle).content) = true) ∧
      isClosedContent ((exC7_subs.getD 4 defaultSubtitle).content) = false) ∧
    ((∀ e ∈ (translateSRTRun exC7_oracle exC7_subs).2,
        e.startIndex < 4 → e.skipped = true) ∧
      (∀ e ∈ (translateSRTRun exC7_oracle exC7_subs).2, e.skipped = true →
        ∀ m, e.startIndex ≤ m → m < e.startIndex + TRANSLATION_BATCH_LENGTH →
          (translateSRTFile exC7_oracle exC7_subs).getD m defaultSubtitle =
            exC7_subs.getD m defaultSubtitle) ∧
      (∃ e, e ∈ (translateSRTRun exC7_oracle exC7_subs).2 ∧
        e.startIndex = 4 ∧ e.skipped = false) ∧
      (∀ e ∈ (translateSRTRun exC7_oracle exC7_subs).2,
        e.skipped = false → 4 ≤ e.startIndex)) :=
  ⟨⟨by decide, by decide, by decide, by decide⟩,
    claim7_resumability exC7_oracle exC7_subs 4 1 (by decide) (by decide)
      (by decide) (by decide)⟩

theorem closeCue_content (s : Subtitle) (t : PyStr) :
    (closeCue s t).content =
      s.content ++ '\n' :: (TRANSLATION_PRE ++ (t ++ TRANSLATION_SUFFIX)) := rfl

/-- C10. The driver preserves the track length and, for every cue, its id,
start and end timestamps; a cue's content is either untouched or extended by
exactly a newline, the translation markup opening, some translated string and
the markup closing, so the original source text is a prefix of the new
content; cues inside skipped batches are returned entirely unchanged. -/
theorem claim10_frame (oracle : Oracle) (subs : List Subtitle) (j : Nat)
    (hj : j < subs.length) :
    ((translateSRTFile oracle subs).length = subs.length) ∧
    (((translateSRTFile oracle subs).getD j defaultSubtitle).index =
        (subs.getD j defaultSubtitle).index ∧
      ((translateSRTFile oracle subs).getD j defaultSubtitle).start =
        (subs.getD j defaultSubtitle).start ∧
      ((translateSRTFile oracle subs).getD j defaultSubtitle).stop =
        (subs.getD j defaultSubtitle).stop) ∧
    ((translateSRTFile oracle subs).getD j defaultSubtitle =
        subs.getD j defaultSubtitle ∨
      ∃ t, ((translateSRTFile oracle subs).getD j defaultSubtitle).content =
        (subs.getD j defaultSubtitle).content ++
          '\n' :: (TRANSLATION_PRE ++ (t ++ TRANSLATION_SUFFIX))) ∧
    (∀ e ∈ (translateSRTRun oracle subs).2, e.skipped = true →
      e.startIndex ≤ j → j < e.startIndex + TRANSLATION_BATCH_LENGTH →
      (translateSRTFile oracle subs).getD j defaultSubtitle =
        subs.getD j defaultSubtitle) := by
  obtain ⟨h1, h3, h4⟩ := runTranslate_master oracle subs
  have hB : TRANSLATION_BATCH_LENGTH = 4 := rfl
  have hij : TRANSLATION_BATCH_LENGTH * (j / TRANSLATION_BATCH_LENGTH) ≤ j ∧
      j < TRANSLATION_BATCH_LENGTH * (j / TRANSLATION_BATCH_LENGTH) +
        TRANSLATION_BATCH_LENGTH := by
    rw [hB]
    have hmod := Nat.mod_add_div j 4
    have hmodlt : j % 4 < 4 := Nat.mod_lt _ (by omega)
    omega
  have hmem : TRANSLATION_BATCH_LENGTH * (j / TRANSLATION_BATCH_LENGTH) ∈
      batchStarts subs.length :=
    mul_mem_batchStarts (by omega)
  rw [← h3] at hmem
  obtain ⟨e, he, hei⟩ := List.mem_map.mp hmem
  obtain ⟨_, _, _, hskipcl, hnscl⟩ := h4 e he
  have hval : (translateSRTFile oracle subs).getD j defaultSubtitle =
      subs.getD j defaultSubtitle ∨
      ∃ t, (translateSRTFile oracle subs).getD j defaultSubtitle =
        closeCue (subs.getD j defaultSubtitle) t := by
    by_cases hsk : e.skipped = true
    · left
      exact hskipcl hsk j (by rw [hei]; exact hij.1) (by rw [hei]; exact hij.2)
    · have hns2 : e.skipped = false := by
        revert hsk
        cases e.skipped <;> simp
      obtain ⟨hbt, _, _, hvals⟩ := hnscl hns2
      have hklt : j - e.startIndex < e.batch.length := by
        rw [hbt, hei]
        simp only [List.length_take, List.length_drop]
        omega
      have hv := hvals (j - e.startIndex) hklt
      have hidx : e.startIndex + (j - e.startIndex) = j := by
        rw [hei]
        omega
      rw [hidx] at hv
      by_cases hts : (j - e.startIndex) < e.translations.length
      · right
        rw [if_pos hts] at hv
        exact ⟨_, hv⟩
      · left
        rw [if_neg hts] at hv
        exact hv
  refine ⟨h1, ?_, ?_, ?_⟩
  · rcases hval with h | ⟨t, h⟩ <;> rw [h] <;> exact ⟨rfl, rfl, rfl⟩
  · rcases hval with h | ⟨t, h⟩
    · left
      exact h
    · right
      exact ⟨t, by rw [h, closeCue_content]⟩
  · intro e2 he2 hsk2 hm1 hm2
    obtain ⟨_, _, _, hskipcl2, _⟩ := h4 e2 he2
    exact hskipcl2 hsk2 j hm1 hm2

/-- C10, witness at cue 2 of a three-cue fully translated run. -/
theorem claim10_witness :
    (1 : Nat) < exC10_subs.length ∧
    (((translateSRTFile exC10_oracle exC10_subs).length = exC10_subs.length) ∧
      (((translateSRTFile exC10_oracle exC10_subs).getD 1 defaultSubtitle).index =
          (exC10_subs.getD 1 defaultSubtitle).index ∧
        ((translateSRTFile exC10_oracle exC10_subs).getD 1 defaultSubtitle).start =
          (exC10_subs.getD 1 defaultSubtitle).start ∧
        ((translateSRTFile exC10_oracle exC10_subs).getD 1 defaultSubtitle).stop =
          (exC10_subs.getD 1 defaultSubtitle).stop) ∧
      (((translateSRTFile exC10_oracle exC10_subs).getD 1 defaultSubtitle =
          exC10_subs.getD 1 defaultSubtitle ∨
        ∃ t, ((translateSRTFile exC10_oracle exC10_subs).getD 1 defaultSubtitle).content =
          (exC10_subs.getD 1 defaultSubtitle).content ++
            '\n' :: (TRANSLATION_PRE ++ (t ++ TRANSLATION_SUFFIX)))) ∧
      (∀ e ∈ (translateSRTRun exC10_oracle exC10_subs).2, e.skipped = true →
        e.startIndex ≤ 1 → 1 < e.startIndex + TRANSLATION_BATCH_LENGTH →
        (translateSRTFile exC10_oracle exC10_subs).getD 1 defaultSubtitle =
          exC10_subs.getD 1 defaultSubtitle)) :=
  ⟨by decide, claim10_frame exC10_oracle exC10_subs 1 (by decide)⟩

/-- C1, counterexample. The claim states that a response whose length differs
from the batch size is never accepted into the track and triggers a retry of
the same batch. Here the single batch has two cues, the oracle reply has one
string, exactly one request is made (the trace has one record, so nothing is
re-requested), and yet the first cue is closed with that reply. -/
theorem claim1_counterexample :
    exC1_rec.batch.length = 2 ∧
    exC1_rec.translations.length = 1 ∧
    (translateSRTRun exC1_oracle exC1_subs).2.length = 1 ∧
    isClosedContent
      (((translateSRTFile exC1_oracle exC1_subs).getD 0 defaultSubtitle).content) = true ∧
    ((translateSRTFile exC1_oracle exC1_subs).getD 0 defaultSubtitle).content =
      ("A.\n<span style=\"color: yellow;\"><i>ha</i></span>").toList ∧
    (translateSRTFile exC1_oracle exC1_subs).getD 1 defaultSubtitle =
      exC1_subs.getD 1 defaultSubtitle := by
  refine ⟨?_, ?_, ?_, ?_, ?_, ?_⟩ <;> decide

/-- C1, amended. A response of length not equal to the batch size is accepted
partially rather than rejected: each batch is requested exactly once (one
trace record per batch start, no retry), and the reply is zipped against the
batch, so the first min(batch, reply) cues are closed with the corresponding
(doubly stripped) strings and the remaining cues of the batch are returned
unchanged; surplus reply strings are ignored. -/
theorem claim1_amended_partial_acceptance (oracle : Oracle) (subs : List Subtitle)
    (e : BatchRecord) (he : e ∈ (translateSRTRun oracle subs).2)
    (hns : e.skipped = false) :
    (((translateSRTRun oracle subs).2).map (fun r => r.startIndex) =
      batchStarts subs.length) ∧
    e.translations = (oracle e.prevCtx e.futureCtx e.batch).getD [] ∧
    (∀ k, k < e.batch.length →
      (translateSRTFile oracle subs).getD (e.startIndex + k) defaultSubtitle =
        (if k < e.translations.length
         then closeCue (subs.getD (e.startIndex + k) defaultSubtitle)
           (pyStrip (pyStrip (e.translations.getD k [])))
         else subs.getD (e.startIndex + k) defaultSubtitle)) := by
  obtain ⟨_, h3, h4⟩ := runTranslate_master oracle subs
  obtain ⟨_, _, _, _, hns2⟩ := h4 e he
  obtain ⟨_, _, htr, hvals⟩ := hns2 hns
  exact ⟨h3, htr, hvals⟩

/-- C1, witness for the amended theorem on the length-mismatched run. -/
theorem claim1_amended_witness :
    (exC1_rec ∈ (translateSRTRun exC1_oracle exC1_subs).2 ∧ exC1_rec.skipped = false) ∧
    ((((translateSRTRun exC1_oracle exC1_subs).2).map (fun r => r.startIndex) =
        batchStarts exC1_subs.length) ∧
      exC1_rec.translations =
        (exC1_oracle exC1_rec.prevCtx exC1_rec.futureCtx exC1_rec.batch).getD [] ∧
      (∀ k, k < exC1_rec.batch.length →
        (translateSRTFile exC1_oracle exC1_subs).getD (exC1_rec.startIndex + k)
            defaultSubtitle =
          (if k < exC1_rec.translations.length
           then closeCue (exC1_subs.getD (exC1_rec.startIndex + k) defaultSubtitle)
             (pyStrip (pyStrip (exC1_rec.translations.getD k [])))
           else exC1_subs.getD (exC1_rec.startIndex + k) defaultSubtitle))) :=
  ⟨⟨by decide, by decide⟩,
    claim1_amended_partial_acceptance exC1_oracle exC1_subs exC1_rec
      (by decide) (by decide)⟩

/-- C2, counterexample. The claim states that a persistently failing batch is
retried up to a ceiling, then a fallback model is tried, and on exhaustion the
whole file fails fatally with no further batch attempted. Here the first
batch's oracle call fails; the batch is attempted exactly once (two trace
records for two batches), its cues are left open and unchanged, and the
driver nevertheless proceeds to the second batch, which succeeds and closes
cue 5. -/
theorem claim2_counterexample :
    exC2_rec.skipped = false ∧
    exC2_rec.translations = [] ∧
    (translateSRTRun exC2_oracle exC2_subs).2.length = 2 ∧
    (translateSRTFile exC2_oracle exC2_subs).getD 0 defaultSubtitle =
      exC2_subs.getD 0 defaultSubtitle ∧
    ((translateSRTRun exC2_oracle exC2_subs).2.getD 1 defaultBatchRecord).skipped = false ∧
    ((translateSRTRun exC2_oracle exC2_subs).2.getD 1 defaultBatchRecord).translations.length
      = 4 ∧
    isClosedContent
      (((translateSRTFile exC2_oracle exC2_subs).getD 4 defaultSubtitle).content) = true := by
  refine ⟨?_, ?_, ?_, ?_, ?_, ?_, ?_⟩ <;> decide

/-- C2, amended. There is no retry, fallback or fatal stop: each batch is
attempted exactly once (one trace record per batch start); when the oracle
call for a batch fails, that batch receives the empty translation list, all
its cues are returned unchanged (still open), and every other batch of the
file is still attempted. -/
theorem claim2_amended_single_attempt (oracle : Oracle) (subs : List Subtitle)
    (e : BatchRecord) (he : e ∈ (translateSRTRun oracle subs).2)
    (hns : e.skipped = false)
    (hfail : oracle e.prevCtx e.futureCtx e.batch = none) :
    (((translateSRTRun oracle subs).2).map (fun r => r.startIndex) =
      batchStarts subs.length) ∧
    e.translations = [] ∧
    (∀ k, k < e.batch.length →
      (translateSRTFile oracle subs).getD (e.startIndex + k) defaultSubtitle =
        subs.getD (e.startIndex + k) defaultSubtitle) := by
  obtain ⟨_, h3, h4⟩ := runTranslate_master oracle subs
  obtain ⟨_, _, _, _, hns2⟩ := h4 e he
  obtain ⟨_, _, htr, hvals⟩ := hns2 hns
  have hts : e.translations = [] := by
    rw [htr, hfail]
    rfl
  refine ⟨h3, hts, ?_⟩
  intro k hk
  have hv := hvals k hk
  rw [if_neg (by rw [hts]; simp)] at hv
  exact hv

/-- C2, witness for the amended theorem on the failing first batch. -/
theorem claim2_amended_witness :
    (exC2_rec ∈ (translateSRTRun exC2_oracle exC2_subs).2 ∧
      exC2_rec.skipped = false ∧
      exC2_oracle exC2_rec.prevCtx exC2_rec.futureCtx exC2_rec.batch = none) ∧
    ((((translateSRTRun exC2_oracle exC2_subs).2).map (fun r => r.startIndex) =
        batchStarts exC2_subs.length) ∧
      exC2_rec.translations = [] ∧
      (∀ k, k < exC2_rec.batch.length →
        (translateSRTFile exC2_oracle exC2_subs).getD (exC2_rec.startIndex + k)
            defaultSubtitle =
          exC2_subs.getD (exC2_rec.startIndex + k) defaultSubtitle)) :=
  ⟨⟨by decide, by decide, by decide⟩,
    claim2_amended_single_attempt exC2_oracle exC2_subs exC2_rec
      (by decide) (by decide) (by decide)⟩

/-- C5, counterexample. The claim states that when a run resumes on a track
whose first cues are already closed, the first translated batch still sees
those preceding closed cues as previous context. Here the first four cues are
closed, the batch starting at position 4 is translated, and its previous
context is empty rather than the four preceding closed cues. -/
theorem claim5_counterexample :
    (∀ s ∈ exC5_subs.take 4, isClosedContent s.content = true) ∧
    exC5_rec1.startIndex = 4 ∧
    exC5_rec1.skipped = false ∧
    exC5_rec1.prevCtx = [] := by
  refine ⟨?_, ?_, ?_, ?_⟩ <;> decide

/-- C5, amended. The previous-context window is accumulated only from batches
translated during the current run: skipped (already-closed) batches contribute
nothing, so any trace entry preceded exclusively by skipped entries is handed
an empty previous context. -/
theorem claim5_amended_context (oracle : Oracle) (subs : List Subtitle)
    (t1 : List BatchRecord) (e : BatchRecord) (t2 : List BatchRecord)
    (heq : (translateSRTRun oracle subs).2 = t1 ++ e :: t2)
    (hskips : ∀ x ∈ t1, x.skipped = true) :
    e.prevCtx = [] :=
  runBatches_prev_nil oracle (batchStarts subs.length) ⟨subs, [], []⟩ rfl
    t1 e t2 heq hskips

/-- C5, witness for the amended theorem on the resumed run. -/
theorem claim5_amended_witness :
    ((translateSRTRun exC5_oracle exC5_subs).2 = [exC5_rec0] ++ exC5_rec1 :: [] ∧
      (∀ x ∈ [exC5_rec0], x.skipped = true)) ∧
    exC5_rec1.prevCtx = [] :=
  ⟨⟨by decide, by decide⟩,
    claim5_amended_context exC5_oracle exC5_subs [exC5_rec0] exC5_rec1 []
      (by decide) (by decide)⟩

theorem pyResolveIdx_lt {len : Nat} {i : Int} {m : Nat}
    (h : pyResolveIdx len i = some m) : m < len := by
  unfold pyResolveIdx at h
  by_cases h0 : 0 ≤ i
  · rw [if_pos h0] at h
    by_cases h1 : i.toNat < len
    · rw [if_pos h1] at h
      cases h
      exact h1
    · rw [if_neg h1] at h
      cases h
  · rw [if_neg h0] at h
    by_cases h2 : (-i).toNat ≤ len
    · rw [if_pos h2] at h
      cases h
      omega
    · rw [if_neg h2] at h
      cases h

theorem mismatchAt_set (cs : List Subtitle) (k : Nat) (x : Subtitle)
    (hx : x.index = (cs.getD k defaultSubtitle).index) (tr : ReevalTranslation) :
    mismatchAt (cs.set k x) tr = mismatchAt cs tr := by
  unfold mismatchAt
  rw [List.length_set]
  cases hres : pyResolveIdx cs.length (tr.id - 1) with
  | none => rfl
  | some m =>
    show decide (((cs.set k x).getD m defaultSubtitle).index ≠ tr.id) =
      decide ((cs.getD m defaultSubtitle).index ≠ tr.id)
    have hidxeq : ((cs.set k x).getD m defaultSubtitle).index =
        (cs.getD m defaultSubtitle).index := by
      by_cases hkm : k = m
      · subst hkm
        have hlt := pyResolveIdx_lt hres
        rw [getD_set_self hlt, hx]
      · rw [getD_set_ne hkm]
    rw [hidxeq]

theorem applyCorrections_cons_none (subs0 cs : List Subtitle)
    (tr : ReevalTranslation) (rest : List ReevalTranslation)
    (hres : pyResolveIdx cs.length (tr.id - 1) = none) :
    applyCorrections subs0 cs (tr :: rest) = subs0 := by
  unfold applyCorrections
  rw [hres]

theorem applyCorrections_cons_some (subs0 cs : List Subtitle)
    (tr : ReevalTranslation) (rest : List ReevalTranslation) (k : Nat)
    (hres : pyResolveIdx cs.length (tr.id - 1) = some k) :
    applyCorrections subs0 cs (tr :: rest) =
      (if (cs.getD k defaultSubtitle).index = tr.id then
        applyCorrections subs0
          (cs.set k
            { cs.getD k defaultSubtitle with
              content := reSubTranslation tr.t (cs.getD k defaultSubtitle).content })
          rest
      else subs0) := by
  conv_lhs => unfold applyCorrections
  rw [hres]

theorem applyCorrections_abort :
    ∀ (trs : List ReevalTranslation) (subs0 cs : List Subtitle),
      (∃ tr ∈ trs, mismatchAt cs tr = true) →
      applyCorrections subs0 cs trs = subs0 := by
  intro trs
  induction trs with
  | nil =>
    intro subs0 cs h
    obtain ⟨tr, htr, _⟩ := h
    simp at htr
  | cons tr rest ih =>
    intro subs0 cs h
    cases hres : pyResolveIdx cs.length (tr.id - 1) with
    | none => exact applyCorrections_cons_none subs0 cs tr rest hres
    | some k =>
      rw [applyCorrections_cons_some subs0 cs tr rest k hres]
      by_cases hidx : (cs.getD k defaultSubtitle).index = tr.id
      · rw [if_pos hidx]
        have hnotfirst : mismatchAt cs tr = false := by
          unfold mismatchAt
          rw [hres]
          show decide ((cs.getD k defaultSubtitle).index ≠ tr.id) = false
          exact decide_eq_false (fun hc => hc hidx)
        obtain ⟨tr2, htr2, hmis⟩ := h
        rcases List.mem_cons.mp htr2 with rfl | htail
        · rw [hnotfirst] at hmis
          simp at hmis
        · apply ih
          refine ⟨tr2, htail, ?_⟩
          have hm2 := mismatchAt_set cs k
            { cs.getD k defaultSubtitle with
              content := reSubTranslation tr.t (cs.getD k defaultSubtitle).content }
            rfl tr2
          exact hm2.trans hmis
      · rw [if_neg hidx]

/-- C8. During reevaluation, if any correction in the reply has a claimed id
that does not match the index of the cue at Python position `id - 1` of the
(line-break-encoded) working copy — or that position raises an IndexError —
the whole pass is aborted and the original input list is returned unchanged;
corrections earlier in the list were applied only to the discarded copy and
are not visible in the result. -/
theorem claim8_reevaluation_abort (subs : List Subtitle) (r : ReevaluationResponse)
    (hst : r.status = true)
    (hmis : ∃ tr ∈ r.updatedTranslations,
      mismatchAt (subs.map brEncodeSub) tr = true) :
    reevaluateTranslatedSRTFile subs (some r) = subs := by
  have h1 : reevaluateTranslatedSRTFile subs (some r) =
      (if r.status = true then
        applyCorrections subs (subs.map brEncodeSub) r.updatedTranslations
      else ((subs.map brEncodeSub).map brDecodeSub)) := rfl
  rw [h1, if_pos hst]
  exact applyCorrections_abort r.updatedTranslations subs (subs.map brEncodeSub) hmis

/-- C8, witness: a one-cue track with a correction claiming id 2 is returned
unchanged. -/
theorem claim8_witness :
    (exC8_resp.status = true ∧
      (∃ tr ∈ exC8_resp.updatedTranslations,
        mismatchAt (exC8_subs.map brEncodeSub) tr = true)) ∧
    reevaluateTranslatedSRTFile exC8_subs (some exC8_resp) = exC8_subs :=
  ⟨⟨by decide, by decide⟩,
    claim8_reevaluation_abort exC8_subs exC8_resp (by decide) (by decide)⟩
